import Mathlib

/-!
Verification of the peak-matching and scoring engine of a spectral
similarity library (source file: `src/similarity.py`).

The engine is embedded shallowly over `ℚ`:

* `SpectrumTuple` mirrors the `SpectrumTuple` named tuple (precursor m/z,
  precursor charge, m/z array, intensity array).
* `cosine_fast` mirrors `_cosine_fast`: the two-pointer sweep collecting
  candidate peak pairs (optionally over several precursor-mass shifts),
  the descending sort of the candidates by weight (numpy
  `argsort(...)[::-1]`, with `argsort` modelled as a stable ascending
  sort, ties broken by position, followed by reversal), and the greedy
  acceptance pass with the two used-index sets.
* `modified_cosine` mirrors the optimal-assignment variant; the external
  solver `scipy.optimize.linear_sum_assignment` is modelled from the spec
  (see `lsaAux`).
* The caller-level L2 normalisation (`np.copy(intensity) / np.linalg.norm(...)`
  in `_cosine` and `modified_cosine`) involves a square root and is
  represented by the normalisation hypothesis `sumSq intensity = 1`
  carried by the theorems, exactly the state the engine sees on valid
  (non-degenerate) input.
* The source stores the per-shift cursors as `np.uint16`; the cursor
  increment in `advanceU16` therefore reduces modulo `2 ^ 16`.  The
  wrap-free pure-`ℕ` variant is `advanceNat`, and the two are proved to
  coincide for spectra within the 65536-peak interface limit.
-/

unseal Rat.add Rat.sub Rat.mul Rat.inv

/-- Engine-facing snapshot of a spectrum, mirroring the source named tuple
`SpectrumTuple(precursor_mz, precursor_charge, mz, intensity)`.  The
intensity list is the normalised intensity array the engine works on. -/
structure SpectrumTuple where
  precursor_mz : ℚ
  precursor_charge : ℤ
  mz : List ℚ
  intensity : List ℚ
deriving DecidableEq, Repr

/-- Sum of squares of a list; `sumSq l = 1` states that `l` is an
L2-normalised intensity vector (the state produced by the source division
`intensity / np.linalg.norm(intensity)` on non-degenerate input). -/
def sumSq (l : List ℚ) : ℚ :=
  (l.map (fun x => x ^ 2)).sum

/-- Precursor mass difference, source lines
`precursor_charge = max(spec.precursor_charge, 1)` and
`precursor_mass_diff = (spec.precursor_mz - spec_other.precursor_mz) * precursor_charge`. -/
def precursorMassDiff (s1 s2 : SpectrumTuple) : ℚ :=
  (s1.precursor_mz - s2.precursor_mz) * ((max s1.precursor_charge 1 : ℤ) : ℚ)

/-- Number of shift hypotheses, source lines
`num_shifts = 1; if allow_shift and abs(precursor_mass_diff) >= fragment_mz_tolerance:
num_shifts += precursor_charge`.  The same computation appears (with
`allow_shift` absent, i.e. `True`) in `modified_cosine`. -/
def numShifts (s1 s2 : SpectrumTuple) (tol : ℚ) (allow_shift : Bool) : ℕ :=
  if allow_shift = true ∧ tol ≤ |precursorMassDiff s1 s2| then
    1 + (max s1.precursor_charge 1).toNat
  else 1

/-- Mass shift for shift index `c`, source lines
`mass_diff = np.zeros(num_shifts); for charge in range(1, num_shifts):
mass_diff[charge] = precursor_mass_diff / charge`. -/
def massDiff (s1 s2 : SpectrumTuple) (c : ℕ) : ℚ :=
  if c = 0 then 0 else precursorMassDiff s1 s2 / (c : ℚ)

/-- Cursor-advance loop of `_cosine_fast` (source lines 283-288):
`while other_peak_index[cpi] < len(spec_other.mz) - 1 and
(peak_mz - fragment_mz_tolerance > spec_other.mz[other_peak_index[cpi]] + mass_diff[cpi]):
other_peak_index[cpi] += 1`.  The cursor array has dtype `np.uint16`, so
the increment wraps modulo `2 ^ 16`.  The loop genuinely diverges in the
source for spectra beyond the 65536-peak limit; it is modelled with
explicit fuel, which is proved sufficient (and wrap-free, see
`advanceU16_eq_advanceNat`) within that limit. -/
def advanceU16 (pmz tol shift : ℚ) (mzB : List ℚ) : ℕ → ℕ → ℕ
  | 0, c => c
  | f + 1, c =>
    if (c : ℤ) < (mzB.length : ℤ) - 1 ∧ mzB.getD c 0 + shift < pmz - tol then
      advanceU16 pmz tol shift mzB f ((c + 1) % 65536)
    else c

/-- Pure-`ℕ` variant of `advanceU16` without the 16-bit wrap; used to state
that the uint16 cursor arithmetic never wraps within the interface limit. -/
def advanceNat (pmz tol shift : ℚ) (mzB : List ℚ) : ℕ → ℕ → ℕ
  | 0, c => c
  | f + 1, c =>
    if (c : ℤ) < (mzB.length : ℤ) - 1 ∧ mzB.getD c 0 + shift < pmz - tol then
      advanceNat pmz tol shift mzB f (c + 1)
    else c

/-- Scan loop of `_cosine_fast` (source lines 290-305): starting from the
advanced cursor, record a candidate `(weight, peak_index, other_peak_i)`
for every consecutive other peak inside the fragment tolerance window.
The source appends to the two parallel lists `peak_match_scores` /
`peak_match_idx`; they are modelled as one list of triples. -/
def scanFrom (i : ℕ) (pmz pint tol shift : ℚ) (mzB intB : List ℚ)
    (start : ℕ) : ℕ → ℕ → List (ℚ × ℕ × ℕ)
  | 0, _ => []
  | f + 1, idx =>
    if start + idx < mzB.length ∧ |pmz - (mzB.getD (start + idx) 0 + shift)| ≤ tol then
      (pint * intB.getD (start + idx) 0, i, start + idx) ::
        scanFrom i pmz pint tol shift mzB intB start f (idx + 1)
    else []

/-- Body of the main peak loop of `_cosine_fast` (one iteration of
`for peak_index, (peak_mz, peak_intensity) in enumerate(zip(spec.mz, spec.intensity))`):
first all per-shift cursors are advanced, then each advanced cursor is
scanned for candidate matches.  The state is the pair
(cursor list, accumulated candidate list). -/
def processPeak (so : SpectrumTuple) (tol : ℚ) (numS : ℕ) (md : ℕ → ℚ)
    (st : List ℕ × List (ℚ × ℕ × ℕ)) (pk : ℕ × ℚ × ℚ) :
    List ℕ × List (ℚ × ℕ × ℕ) :=
  let cursors := (List.range numS).map fun c =>
    advanceU16 pk.2.1 tol (md c) so.mz so.mz.length (st.1.getD c 0)
  let news := (List.range numS).map fun c =>
    scanFrom pk.1 pk.2.1 pk.2.2 tol (md c) so.mz so.intensity (cursors.getD c 0)
      (so.mz.length + 1) 0
  (cursors, st.2 ++ news.flatten)

/-- Candidate peak matches produced by the sweep phase of `_cosine_fast`
(the contents of `peak_match_scores` zipped with `peak_match_idx`). -/
def sweepCands (s1 s2 : SpectrumTuple) (tol : ℚ) (allow_shift : Bool) :
    List (ℚ × ℕ × ℕ) :=
  let numS := numShifts s1 s2 tol allow_shift
  ((List.enum (s1.mz.zip s1.intensity)).foldl
    (processPeak s2 tol numS (massDiff s1 s2))
    ((List.range numS).map fun _ => (0 : ℕ), [])).2

/-- List of intermediate sweep states (cursor list and accumulated
candidates) before each peak of spectrum 1 is processed and after the last
one; the final state yields `sweepCands`. -/
def sweepTrace (s1 s2 : SpectrumTuple) (tol : ℚ) (allow_shift : Bool) :
    List (List ℕ × List (ℚ × ℕ × ℕ)) :=
  let numS := numShifts s1 s2 tol allow_shift
  (List.enum (s1.mz.zip s1.intensity)).scanl
    (processPeak s2 tol numS (massDiff s1 s2))
    ((List.range numS).map fun _ => (0 : ℕ), [])

/-- Ascending comparison used to model `np.argsort(peak_match_scores_arr)`
on the tagged candidate list `cands.enum`: compare by weight, break ties
by position (stable sort). -/
def ascR (x y : ℕ × ℚ × ℕ × ℕ) : Prop :=
  x.2.1 < y.2.1 ∨ (x.2.1 = y.2.1 ∧ x.1 ≤ y.1)

instance : DecidableRel ascR := fun x y => by
  unfold ascR; infer_instance

instance : IsTotal (ℕ × ℚ × ℕ × ℕ) ascR := by
  constructor
  intro a b
  rcases lt_trichotomy a.2.1 b.2.1 with h | h | h
  · exact Or.inl (Or.inl h)
  · rcases le_total a.1 b.1 with h2 | h2
    · exact Or.inl (Or.inr ⟨h, h2⟩)
    · exact Or.inr (Or.inr ⟨h.symm, h2⟩)
  · exact Or.inr (Or.inl h)

instance : IsTrans (ℕ × ℚ × ℕ × ℕ) ascR := by
  constructor
  intro a b c hab hbc
  rcases hab with h1 | ⟨e1, t1⟩
  · rcases hbc with h2 | ⟨e2, _⟩
    · exact Or.inl (h1.trans h2)
    · exact Or.inl (e2 ▸ h1)
  · rcases hbc with h2 | ⟨e2, t2⟩
    · exact Or.inl (e1 ▸ h2)
    · exact Or.inr ⟨e1.trans e2, t1.trans t2⟩

/-- Sorting phase of `_cosine_fast` (source lines 311-314):
`peak_match_order = np.argsort(peak_match_scores_arr)[::-1]` applied to the
scores and index arrays together.  `argsort` is modelled as a stable
ascending sort of the position-tagged candidates, then the order is
reversed, yielding the processing order of the acceptance pass. -/
def sortTagged (l : List (ℕ × ℚ × ℕ × ℕ)) : List (ℕ × ℚ × ℕ × ℕ) :=
  (List.insertionSort ascR l).reverse

/-- One step of the greedy acceptance pass of `_cosine_fast` (source lines
316-330).  The state is `(score, peak_matches, peaks_used, other_peaks_used)`;
the used sets are modelled as lists with membership tests. -/
def accStep (st : ℚ × List (ℕ × ℕ) × List ℕ × List ℕ) (c : ℕ × ℚ × ℕ × ℕ) :
    ℚ × List (ℕ × ℕ) × List ℕ × List ℕ :=
  if c.2.2.1 ∉ st.2.2.1 ∧ c.2.2.2 ∉ st.2.2.2 then
    (st.1 + c.2.1, st.2.1 ++ [(c.2.2.1, c.2.2.2)], c.2.2.1 :: st.2.2.1,
      c.2.2.2 :: st.2.2.2)
  else st

/-- The full `_cosine_fast` routine: sweep, sort (guarded by
`if len(peak_match_scores) > 0`), greedy acceptance; returns the score and
the accepted peak-index pairs. -/
def cosine_fast (s1 s2 : SpectrumTuple) (tol : ℚ) (allow_shift : Bool) :
    ℚ × List (ℕ × ℕ) :=
  let cands := sweepCands s1 s2 tol allow_shift
  if 0 < cands.length then
    let res := (sortTagged cands.enum).foldl accStep (0, [], [], [])
    (res.1, res.2.1)
  else (0, [])

/-- Source `cosine`: plain cosine similarity, greedy matcher, no shifts. -/
def cosine (s1 s2 : SpectrumTuple) (tol : ℚ) : ℚ × List (ℕ × ℕ) :=
  cosine_fast s1 s2 tol false

/-- Source `modified_cosine_greedy`: shift-tolerant greedy variant. -/
def modified_cosine_greedy (s1 s2 : SpectrumTuple) (tol : ℚ) : ℚ × List (ℕ × ℕ) :=
  cosine_fast s1 s2 tol true

/-- Ascending comparison on (m/z, intensity) peak pairs, used for the
re-sort inside the neutral-loss transformation. -/
def pairLe (x y : ℚ × ℚ) : Prop := x.1 ≤ y.1

instance : DecidableRel pairLe := fun x y => by
  unfold pairLe; infer_instance

instance : IsTotal (ℚ × ℚ) pairLe := ⟨fun a b => le_total a.1 b.1⟩

instance : IsTrans (ℚ × ℚ) pairLe := ⟨fun _ _ _ h1 h2 => le_trans h1 h2⟩

/-- Modelled from the spec: `utils.spec_to_neutral_loss` (the module
`utils` is not part of the repository sources).  Per the spec, it replaces
each `mz[i]` by `precursorMz - mz[i]`, re-sorts the peaks to restore the
ascending m/z order required by the matchers, and leaves the intensity
values untouched (no renormalisation); precursor fields are unchanged. -/
def spec_to_neutral_loss (s : SpectrumTuple) : SpectrumTuple :=
  let pairs := (s.mz.zip s.intensity).map fun p => (s.precursor_mz - p.1, p.2)
  let sorted := List.insertionSort pairLe pairs
  ⟨s.precursor_mz, s.precursor_charge, sorted.map Prod.fst, sorted.map Prod.snd⟩

/-- Source `neutral_loss`: neutral-loss transform on both spectra, then the
plain greedy matcher. -/
def neutral_loss (s1 s2 : SpectrumTuple) (tol : ℚ) : ℚ × List (ℕ × ℕ) :=
  cosine_fast (spec_to_neutral_loss s1) (spec_to_neutral_loss s2) tol false

/-- Source `modified_neutral_loss`: neutral-loss transform on both spectra,
then the shift-tolerant greedy matcher. -/
def modified_neutral_loss (s1 s2 : SpectrumTuple) (tol : ℚ) : ℚ × List (ℕ × ℕ) :=
  cosine_fast (spec_to_neutral_loss s1) (spec_to_neutral_loss s2) tol true

/-- Cell of the pairwise cost matrix of `modified_cosine` (source lines
86-94): the fold realises `for shift in range(num_shifts): if
abs(spectrum1.mz[i] - (spectrum2.mz[j] + mass_diff[shift])) <= tol:
cost[i, j] = max(intensity1[i] * intensity2[j], cost[i, j])` starting from
the zero matrix.  The shift set of `modified_cosine` (source lines 74-83)
is computed by the same formula as `_cosine_fast` with shifts allowed, so
`numShifts s1 s2 tol true` and `massDiff` are shared. -/
def cost (s1 s2 : SpectrumTuple) (tol : ℚ) (i j : ℕ) : ℚ :=
  (List.range (numShifts s1 s2 tol true)).foldl
    (fun acc c =>
      if |s1.mz.getD i 0 - (s2.mz.getD j 0 + massDiff s1 s2 c)| ≤ tol then
        max (s1.intensity.getD i 0 * s2.intensity.getD j 0) acc
      else acc)
    0

/-- Modelled from the spec: `scipy.optimize.linear_sum_assignment(cost,
maximize=True)` (an external collaborator, described in the spec as a
maximum-weight bipartite assignment solver behind the narrow interface
`solve(costMatrix) -> ordered sequence of (row, col)`).  `lsaAux cost nB
rows used` returns a best-scoring one-to-one partial matching of the rows
`0 .. rows-1` into columns `0 .. nB-1` avoiding `used`, together with its
total cost.  Since every cell of the cost matrix is nonnegative (cells are
`max(..., 0)`), the maximum over partial matchings equals the maximum over
the full-size assignments the solver returns. -/
def lsaAux (cost : ℕ → ℕ → ℚ) (nB : ℕ) : ℕ → List ℕ → ℚ × List (ℕ × ℕ)
  | 0, _ => (0, [])
  | i + 1, used =>
    (List.range nB).foldl
      (fun best j =>
        if j ∈ used then best
        else
          let r := lsaAux cost nB i (j :: used)
          if cost i j + r.1 > best.1 then (cost i j + r.1, (i, j) :: r.2)
          else best)
      (lsaAux cost nB i used)

/-- Source `modified_cosine`: optimal-assignment variant.  The score is the
total cost of the optimal assignment (`cost[row_ind, col_ind].sum()`), and
the returned matches are the assigned pairs with strictly positive cost
(`if cost[i, j] > 0`). -/
def modified_cosine (s1 s2 : SpectrumTuple) (tol : ℚ) : ℚ × List (ℕ × ℕ) :=
  let r := lsaAux (cost s1 s2 tol) s2.mz.length s1.mz.length []
  (r.1, r.2.filter fun p => 0 < cost s1 s2 tol p.1 p.2)

/-- Weight contributed by a matched peak pair: the product of the two
(normalised) intensities, `intensity1[i] * intensity2[j]`. -/
def wgt (a b : List ℚ) (p : ℕ × ℕ) : ℚ :=
  a.getD p.1 0 * b.getD p.2 0

/-- Total cost of a list of matched pairs under a cost matrix. -/
def matchCost (cost : ℕ → ℕ → ℚ) (M : List (ℕ × ℕ)) : ℚ :=
  (M.map fun p => cost p.1 p.2).sum

/-- Structural invariant of a returned match list: no index of spectrum 1
repeats, no index of spectrum 2 repeats, and consequently there are at
most `min nA nB` matches. -/
def MatchListOk (r : List (ℕ × ℕ)) (nA nB : ℕ) : Prop :=
  (r.map Prod.fst).Nodup ∧ (r.map Prod.snd).Nodup ∧ r.length ≤ min nA nB

/-- Variant of `processPeak` whose cursors use exact natural-number
arithmetic (`advanceNat`) instead of the uint16 arithmetic of the source;
used to express that the uint16 cursors never wrap. -/
def processPeakNat (so : SpectrumTuple) (tol : ℚ) (numS : ℕ) (md : ℕ → ℚ)
    (st : List ℕ × List (ℚ × ℕ × ℕ)) (pk : ℕ × ℚ × ℚ) :
    List ℕ × List (ℚ × ℕ × ℕ) :=
  let cursors := (List.range numS).map fun c =>
    advanceNat pk.2.1 tol (md c) so.mz so.mz.length (st.1.getD c 0)
  let news := (List.range numS).map fun c =>
    scanFrom pk.1 pk.2.1 pk.2.2 tol (md c) so.mz so.intensity (cursors.getD c 0)
      (so.mz.length + 1) 0
  (cursors, st.2 ++ news.flatten)

/-- Sweep trace computed with exact natural-number cursor arithmetic. -/
def sweepTraceNat (s1 s2 : SpectrumTuple) (tol : ℚ) (allow_shift : Bool) :
    List (List ℕ × List (ℚ × ℕ × ℕ)) :=
  let numS := numShifts s1 s2 tol allow_shift
  (List.enum (s1.mz.zip s1.intensity)).scanl
    (processPeakNat s2 tol numS (massDiff s1 s2))
    ((List.range numS).map fun _ => (0 : ℕ), [])

/-- Diagonal candidate list `[(y_k^2, k, k), ..., (y_{n-1}^2, n-1, n-1)]`
produced by the sweep on a self-comparison with well-separated peaks. -/
def diagFrom (y : List ℚ) : ℕ → ℕ → List (ℚ × ℕ × ℕ)
  | _, 0 => []
  | k, m + 1 => (y.getD k 0 * y.getD k 0, k, k) :: diagFrom y (k + 1) m

/-- Row `i` of the tolerance band for an unshifted comparison: one
candidate `(weight, i, j)` for every peak `j` of spectrum 2 with
`|mz1[i] - mz2[j]| <= tol`, in ascending `j` order. -/
def bandRow (s1 s2 : SpectrumTuple) (tol : ℚ) (i : ℕ) : List (ℚ × ℕ × ℕ) :=
  ((List.range s2.mz.length).filter fun j =>
    decide (|s1.mz.getD i 0 - s2.mz.getD j 0| ≤ tol)).map fun j =>
    (s1.intensity.getD i 0 * s2.intensity.getD j 0, i, j)

/-- The full tolerance band in lexicographic `(i, j)` order; on
ascending-sorted spectra the unshifted sweep of `_cosine_fast` produces
exactly this candidate list (`sweepCands_band`). -/
def bandCands (s1 s2 : SpectrumTuple) (tol : ℚ) : List (ℚ × ℕ × ℕ) :=
  ((List.range s1.mz.length).map (bandRow s1 s2 tol)).flatten

/-- Index-swapped mirror of a candidate triple. -/
def mirrorC (c : ℚ × ℕ × ℕ) : ℚ × ℕ × ℕ :=
  (c.1, c.2.2, c.2.1)

/-- Strict lexicographic order on candidate triples by peak-index pair. -/
def lexLt (c d : ℚ × ℕ × ℕ) : Prop :=
  c.2.1 < d.2.1 ∨ (c.2.1 = d.2.1 ∧ c.2.2 < d.2.2)

example : cosine ⟨0, 1, [100, 200], [3/5, 4/5]⟩ ⟨0, 1, [100, 200], [3/5, 4/5]⟩ (1/100) =
    (1, [(1, 1), (0, 0)]) := by decide

example : (modified_cosine ⟨0, 1, [100, 200], [3/5, 4/5]⟩ ⟨0, 1, [100, 200], [3/5, 4/5]⟩ (1/100)).1 = 1 := by decide

example : cosine ⟨0, 1, [100, 100], [1, 1]⟩ ⟨0, 1, [100], [1]⟩ 1 = (1, [(1, 0)]) := by decide

example : modified_cosine_greedy ⟨200, 2, [250], [1]⟩ ⟨100, 1, [50], [1]⟩ (1/10) =
    (1, [(0, 0)]) := by decide

example : modified_cosine_greedy ⟨100, 1, [50], [1]⟩ ⟨200, 2, [250], [1]⟩ (1/10) =
    (0, []) := by decide

example : (modified_cosine ⟨200, 2, [250], [1]⟩ ⟨100, 1, [50], [1]⟩ (1/10)).1 = 1 := by decide

example : (modified_cosine ⟨100, 1, [50], [1]⟩ ⟨200, 2, [250], [1]⟩ (1/10)).1 = 0 := by decide

example : neutral_loss ⟨300, 1, [100, 200], [3/5, 4/5]⟩ ⟨310, 1, [110, 210], [3/5, 4/5]⟩ 1 =
    (1, [(0, 0), (1, 1)]) := by decide

/-! ### Shift suppression -/

lemma numShifts_eq_one_of_small (s1 s2 : SpectrumTuple) (tol : ℚ) (b : Bool)
    (h : |precursorMassDiff s1 s2| < tol) : numShifts s1 s2 tol b = 1 := by
  unfold numShifts
  rw [if_neg]
  rintro ⟨-, h2⟩
  exact absurd h (not_lt.mpr h2)

lemma cosine_fast_shift_indep (s1 s2 : SpectrumTuple) (tol : ℚ)
    (h : |precursorMassDiff s1 s2| < tol) :
    cosine_fast s1 s2 tol true = cosine_fast s1 s2 tol false := by
  have hs : sweepCands s1 s2 tol true = sweepCands s1 s2 tol false := by
    simp only [sweepCands]
    rw [numShifts_eq_one_of_small s1 s2 tol true h,
      numShifts_eq_one_of_small s1 s2 tol false h]
  simp only [cosine_fast]
  rw [hs]

/-- C7: for spectra whose absolute precursor m/z difference scaled by
`max(precursor_charge_1, 1)` is strictly below the fragment tolerance,
the shift-tolerant greedy variants coincide with their non-shift
counterparts on identical inputs (the shift set degenerates to the single
zero shift). -/
theorem C7_shift_suppression (s1 s2 : SpectrumTuple) (tol : ℚ)
    (h : |(s1.precursor_mz - s2.precursor_mz) * ((max s1.precursor_charge 1 : ℤ) : ℚ)| < tol) :
    modified_cosine_greedy s1 s2 tol = cosine s1 s2 tol ∧
    modified_neutral_loss s1 s2 tol = neutral_loss s1 s2 tol := by
  have h1 : |precursorMassDiff s1 s2| < tol := h
  refine ⟨cosine_fast_shift_indep s1 s2 tol h1, ?_⟩
  exact cosine_fast_shift_indep (spec_to_neutral_loss s1) (spec_to_neutral_loss s2) tol h1

/-- Witness for C7 at a concrete equal-precursor input. -/
theorem C7_shift_suppression_witness :
    modified_cosine_greedy ⟨0, 1, [100], [1]⟩ ⟨0, 1, [100], [1]⟩ 1 =
      cosine ⟨0, 1, [100], [1]⟩ ⟨0, 1, [100], [1]⟩ 1 ∧
    modified_neutral_loss ⟨0, 1, [100], [1]⟩ ⟨0, 1, [100], [1]⟩ 1 =
      neutral_loss ⟨0, 1, [100], [1]⟩ ⟨0, 1, [100], [1]⟩ 1 :=
  C7_shift_suppression ⟨0, 1, [100], [1]⟩ ⟨0, 1, [100], [1]⟩ 1 (by decide)

/-! ### Empty spectra -/

/-- C9: with zero peaks in both spectra the sweep collects no candidates,
so every greedy-matcher variant returns score `0` and no matches, for any
tolerance and any precursor data. -/
theorem C9_empty_spectra (p1 p2 : ℚ) (c1 c2 : ℤ) (tol : ℚ) :
    cosine ⟨p1, c1, [], []⟩ ⟨p2, c2, [], []⟩ tol = (0, []) ∧
    modified_cosine_greedy ⟨p1, c1, [], []⟩ ⟨p2, c2, [], []⟩ tol = (0, []) ∧
    neutral_loss ⟨p1, c1, [], []⟩ ⟨p2, c2, [], []⟩ tol = (0, []) ∧
    modified_neutral_loss ⟨p1, c1, [], []⟩ ⟨p2, c2, [], []⟩ tol = (0, []) :=
  ⟨rfl, rfl, rfl, rfl⟩

/-! ### Zero-norm intensities (the divisor of the caller-level
normalisation `intensity / np.linalg.norm(intensity)`) -/

/-- C2: at the failing input (a spectrum whose intensity vector is all
zeros) the squared L2 norm is `0`, so the unguarded source division
`np.copy(intensity) / np.linalg.norm(intensity)` in `_cosine` (and in
`modified_cosine`) divides by zero and propagates NaN instead of raising a
`DegenerateSpectrumError`. -/
theorem C2_zero_norm_divisor : sumSq [(0 : ℚ)] = 0 ∧ sumSq ([] : List ℚ) = 0 :=
  ⟨by decide, rfl⟩

/-! ### Tie-breaking of the candidate sort -/

lemma sortTagged_perm (l : List (ℕ × ℚ × ℕ × ℕ)) : (sortTagged l).Perm l :=
  (List.reverse_perm _).trans (List.perm_insertionSort ascR l)

/-- C8 counterexample: two candidates with equal weight; discovery order is
`(0,0)` before `(1,0)`, yet the accepted match is `(1,0)`: the reversal of
the ascending stable argsort puts the later-discovered candidate first, so
the claim that the earlier-discovered candidate is considered first fails. -/
theorem C8_tiebreak_counterexample :
    cosine ⟨0, 1, [100, 100], [1, 1]⟩ ⟨0, 1, [100], [1]⟩ 1 = (1, [(1, 0)]) := by
  decide

/-- C8 amended: the processing order of the acceptance pass is descending
by weight, and candidates of equal weight are considered in reverse
discovery order (the later-discovered candidate first), since the stable
ascending argsort is reversed.  Formally, along the processing list any
earlier entry has strictly larger weight than a later entry, or equal
weight and a position tag at least as large. -/
theorem C8_tiebreak_amended (s1 s2 : SpectrumTuple) (tol : ℚ) (flag : Bool) :
    (sortTagged (sweepCands s1 s2 tol flag).enum).Pairwise
      (fun x y => y.2.1 < x.2.1 ∨ (y.2.1 = x.2.1 ∧ y.1 ≤ x.1)) ∧
    (sortTagged (sweepCands s1 s2 tol flag).enum).Perm
      (sweepCands s1 s2 tol flag).enum := by
  constructor
  · have hs : List.Sorted ascR (List.insertionSort ascR (sweepCands s1 s2 tol flag).enum) :=
      List.sorted_insertionSort ascR _
    have hrev := List.pairwise_reverse.mpr hs
    exact hrev.imp (fun h => h)
  · exact sortTagged_perm _

/-! ### Symmetry -/

/-- C3 counterexample.  Unequal precursor charges: the shift set is
derived from spectrum 1's charge only, and symmetry fails: the pair
(precursor 200, charge 2, peak 250) against (precursor 100, charge 1,
peak 50) scores 1 in one direction and 0 in the other, for both the greedy
and the optimal shift-tolerant variants.  Equal precursor charges: the
greedy shift-tolerant variants are still asymmetric, because the reversed
stable argsort processes the tied shifted candidates in opposite discovery
orders in the two directions: with charge 1 on both sides,
(precursor 0, peaks 0 and 5) against (precursor 5, peaks 0 and 5) at
tolerance 1 scores 2 one way and 1 the other under
`modified_cosine_greedy`, and the analogous neutral-loss pair under
`modified_neutral_loss`. -/
theorem C3_symmetry_counterexample :
    (modified_cosine_greedy ⟨200, 2, [250], [1]⟩ ⟨100, 1, [50], [1]⟩ (1/10) = (1, [(0, 0)]) ∧
     modified_cosine_greedy ⟨100, 1, [50], [1]⟩ ⟨200, 2, [250], [1]⟩ (1/10) = (0, []) ∧
     (modified_cosine ⟨200, 2, [250], [1]⟩ ⟨100, 1, [50], [1]⟩ (1/10)).1 = 1 ∧
     (modified_cosine ⟨100, 1, [50], [1]⟩ ⟨200, 2, [250], [1]⟩ (1/10)).1 = 0) ∧
    (modified_cosine_greedy ⟨0, 1, [0, 5], [1, 1]⟩ ⟨5, 1, [0, 5], [1, 1]⟩ 1 =
       (2, [(1, 1), (0, 0)]) ∧
     modified_cosine_greedy ⟨5, 1, [0, 5], [1, 1]⟩ ⟨0, 1, [0, 5], [1, 1]⟩ 1 =
       (1, [(1, 0)])) ∧
    (modified_neutral_loss ⟨0, 1, [0, 5], [1, 1]⟩ ⟨5, 1, [5, 10], [1, 1]⟩ 1 =
       (2, [(1, 1), (0, 0)]) ∧
     modified_neutral_loss ⟨5, 1, [5, 10], [1, 1]⟩ ⟨0, 1, [0, 5], [1, 1]⟩ 1 =
       (1, [(1, 0)])) := by
  refine ⟨⟨by decide, by decide, by decide, by decide⟩,
    ⟨by decide, by decide⟩, ⟨by decide, by decide⟩⟩

/-! ### Generic list helpers -/

lemma getD_nonneg {a : List ℚ} (h : ∀ x ∈ a, 0 ≤ x) (i : ℕ) : 0 ≤ a.getD i 0 := by
  by_cases hi : i < a.length
  · rw [List.getD_eq_getElem a 0 hi]
    exact h _ (List.getElem_mem hi)
  · rw [List.getD_eq_default a 0 (le_of_not_lt hi)]

lemma sum_map_add {α : Type} (l : List α) (f g : α → ℚ) :
    (l.map fun x => f x + g x).sum = (l.map f).sum + (l.map g).sum := by
  induction l with
  | nil => simp
  | cons x l ih => simp only [List.map_cons, List.sum_cons, ih]; ring

lemma mem_enum_zip {a b : List ℚ} {p : ℕ × ℚ × ℚ} (hp : p ∈ List.enum (a.zip b)) :
    p.1 < a.length ∧ p.1 < b.length ∧ p.2.1 = a.getD p.1 0 ∧ p.2.2 = b.getD p.1 0 := by
  obtain ⟨i, hi, hEq⟩ := List.getElem_of_mem hp
  have hlen : i < (a.zip b).length := by
    have h2 := hi
    rwa [List.enum_length] at h2
  have hab : i < a.length ∧ i < b.length := by
    rw [List.length_zip] at hlen
    exact lt_min_iff.mp hlen
  rw [List.getElem_enum, List.getElem_zip] at hEq
  rw [← hEq]
  exact ⟨hab.1, hab.2, (List.getD_eq_getElem a 0 hab.1).symm,
    (List.getD_eq_getElem b 0 hab.2).symm⟩

lemma nodup_map_length_le {m : List (ℕ × ℕ)} {f : ℕ × ℕ → ℕ} {n : ℕ}
    (h1 : (m.map f).Nodup) (h2 : ∀ p ∈ m, f p < n) : m.length ≤ n := by
  have hsub : (m.map f).toFinset ⊆ Finset.range n := by
    intro x hx
    rw [List.mem_toFinset] at hx
    obtain ⟨p, hp, rfl⟩ := List.mem_map.mp hx
    exact Finset.mem_range.mpr (h2 p hp)
  have hcard := Finset.card_le_card hsub
  rw [List.toFinset_card_of_nodup h1, Finset.card_range, List.length_map] at hcard
  exact hcard

/-! ### Wellformedness of the sweep candidates -/

lemma scanFrom_wf (i : ℕ) (pmz pint tol shift : ℚ) (mzB intB : List ℚ) (start : ℕ) :
    ∀ (f idx : ℕ) (c : ℚ × ℕ × ℕ), c ∈ scanFrom i pmz pint tol shift mzB intB start f idx →
      c.1 = pint * intB.getD c.2.2 0 ∧ c.2.1 = i ∧ c.2.2 < mzB.length ∧
      |pmz - (mzB.getD c.2.2 0 + shift)| ≤ tol := by
  intro f
  induction f with
  | zero => intro idx c hc; simp [scanFrom] at hc
  | succ f ih =>
    intro idx c hc
    rw [scanFrom] at hc
    by_cases h : start + idx < mzB.length ∧ |pmz - (mzB.getD (start + idx) 0 + shift)| ≤ tol
    · rw [if_pos h] at hc
      rcases List.mem_cons.mp hc with hc | hc
      · subst hc
        exact ⟨rfl, rfl, h.1, h.2⟩
      · exact ih (idx + 1) c hc
    · rw [if_neg h] at hc
      simp at hc

lemma sweepCands_wf (s1 s2 : SpectrumTuple) (tol : ℚ) (flag : Bool) :
    ∀ c ∈ sweepCands s1 s2 tol flag,
      c.1 = s1.intensity.getD c.2.1 0 * s2.intensity.getD c.2.2 0 ∧
      c.2.1 < s1.mz.length ∧ c.2.1 < s1.intensity.length ∧ c.2.2 < s2.mz.length ∧
      ∃ k, k < numShifts s1 s2 tol flag ∧
        |s1.mz.getD c.2.1 0 - (s2.mz.getD c.2.2 0 + massDiff s1 s2 k)| ≤ tol := by
  simp only [sweepCands]
  refine @List.foldlRecOn _ _
    (fun st : List ℕ × List (ℚ × ℕ × ℕ) => ∀ c ∈ st.2,
      c.1 = s1.intensity.getD c.2.1 0 * s2.intensity.getD c.2.2 0 ∧
      c.2.1 < s1.mz.length ∧ c.2.1 < s1.intensity.length ∧ c.2.2 < s2.mz.length ∧
      ∃ k, k < numShifts s1 s2 tol flag ∧
        |s1.mz.getD c.2.1 0 - (s2.mz.getD c.2.2 0 + massDiff s1 s2 k)| ≤ tol)
    (List.enum (s1.mz.zip s1.intensity)) _ _ ?_ ?_
  · intro c hc
    simp at hc
  · intro st hst pk hpk c hc
    simp only [processPeak] at hc
    rcases List.mem_append.mp hc with hc | hc
    · exact hst c hc
    · obtain ⟨l', hl', hcl⟩ := List.mem_flatten.mp hc
      obtain ⟨k, hk, hlk⟩ := List.mem_map.mp hl'
      have hk' : k < numShifts s1 s2 tol flag := List.mem_range.mp hk
      subst hlk
      obtain ⟨hw, hi, hj, htol⟩ := scanFrom_wf pk.1 pk.2.1 pk.2.2 tol
        (massDiff s1 s2 k) s2.mz s2.intensity _ _ _ c hcl
      obtain ⟨hiA, hiB, hmz, hint⟩ := mem_enum_zip hpk
      refine ⟨?_, ?_, ?_, hj, k, hk', ?_⟩
      · rw [hw, hi, ← hint]
      · rw [hi]; exact hiA
      · rw [hi]; exact hiB
      · rw [hi, ← hmz]; exact htol

/-! ### The greedy acceptance pass -/

lemma accept_foldl_props (a b : List ℚ) (W : ℕ × ℕ → Prop) :
    ∀ (l : List (ℕ × ℚ × ℕ × ℕ)),
      (∀ x ∈ l, x.2.1 = wgt a b (x.2.2.1, x.2.2.2) ∧ W (x.2.2.1, x.2.2.2)) →
      ∀ st : ℚ × List (ℕ × ℕ) × List ℕ × List ℕ,
        (st.2.1.map Prod.fst).Nodup → (st.2.1.map Prod.snd).Nodup →
        (∀ i, i ∈ st.2.2.1 ↔ i ∈ st.2.1.map Prod.fst) →
        (∀ j, j ∈ st.2.2.2 ↔ j ∈ st.2.1.map Prod.snd) →
        st.1 = (st.2.1.map (wgt a b)).sum → (∀ p ∈ st.2.1, W p) →
        ((l.foldl accStep st).2.1.map Prod.fst).Nodup ∧
        ((l.foldl accStep st).2.1.map Prod.snd).Nodup ∧
        (l.foldl accStep st).1 = ((l.foldl accStep st).2.1.map (wgt a b)).sum ∧
        (∀ p ∈ (l.foldl accStep st).2.1, W p) := by
  intro l
  induction l with
  | nil =>
    intro _ st h1 h2 _ _ h5 h6
    exact ⟨h1, h2, h5, h6⟩
  | cons x l ih =>
    intro hl st h1 h2 h3 h4 h5 h6
    rw [List.foldl_cons]
    have hx := hl x (List.mem_cons_self x l)
    have hl' : ∀ y ∈ l, y.2.1 = wgt a b (y.2.2.1, y.2.2.2) ∧ W (y.2.2.1, y.2.2.2) :=
      fun y hy => hl y (List.mem_cons_of_mem x hy)
    by_cases hacc : x.2.2.1 ∉ st.2.2.1 ∧ x.2.2.2 ∉ st.2.2.2
    · have hstep : accStep st x =
          (st.1 + x.2.1, st.2.1 ++ [(x.2.2.1, x.2.2.2)], x.2.2.1 :: st.2.2.1,
            x.2.2.2 :: st.2.2.2) := by
        unfold accStep
        rw [if_pos hacc]
      rw [hstep]
      have hiA : x.2.2.1 ∉ st.2.1.map Prod.fst := fun hmem => hacc.1 ((h3 x.2.2.1).mpr hmem)
      have hiB : x.2.2.2 ∉ st.2.1.map Prod.snd := fun hmem => hacc.2 ((h4 x.2.2.2).mpr hmem)
      refine ih hl' _ ?_ ?_ ?_ ?_ ?_ ?_
      · simp only [List.map_append, List.map_cons, List.map_nil]
        rw [List.nodup_append]
        exact ⟨h1, List.nodup_singleton _, List.disjoint_singleton.mpr hiA⟩
      · simp only [List.map_append, List.map_cons, List.map_nil]
        rw [List.nodup_append]
        exact ⟨h2, List.nodup_singleton _, List.disjoint_singleton.mpr hiB⟩
      · intro i
        simp only [List.map_append, List.map_cons, List.map_nil, List.mem_append,
          List.mem_cons, List.mem_singleton, List.not_mem_nil, or_false]
        rw [← h3 i]
        constructor
        · rintro (h | h)
          · exact Or.inr h
          · exact Or.inl h
        · rintro (h | h)
          · exact Or.inr h
          · exact Or.inl h
      · intro j
        simp only [List.map_append, List.map_cons, List.map_nil, List.mem_append,
          List.mem_cons, List.mem_singleton, List.not_mem_nil, or_false]
        rw [← h4 j]
        constructor
        · rintro (h | h)
          · exact Or.inr h
          · exact Or.inl h
        · rintro (h | h)
          · exact Or.inr h
          · exact Or.inl h
      · simp only [List.map_append, List.map_cons, List.map_nil, List.sum_append,
          List.sum_cons, List.sum_nil, add_zero]
        rw [h5, hx.1]
      · intro p hp
        rcases List.mem_append.mp hp with hp | hp
        · exact h6 p hp
        · rw [List.mem_singleton.mp hp]
          exact hx.2
    · have hstep : accStep st x = st := by
        unfold accStep
        rw [if_neg hacc]
      rw [hstep]
      exact ih hl' st h1 h2 h3 h4 h5 h6

lemma cosine_fast_spec (s1 s2 : SpectrumTuple) (tol : ℚ) (flag : Bool) :
    ((cosine_fast s1 s2 tol flag).2.map Prod.fst).Nodup ∧
    ((cosine_fast s1 s2 tol flag).2.map Prod.snd).Nodup ∧
    (cosine_fast s1 s2 tol flag).1 =
      ((cosine_fast s1 s2 tol flag).2.map (wgt s1.intensity s2.intensity)).sum ∧
    ∀ p ∈ (cosine_fast s1 s2 tol flag).2,
      p.1 < s1.mz.length ∧ p.1 < s1.intensity.length ∧ p.2 < s2.mz.length ∧
      ∃ k, k < numShifts s1 s2 tol flag ∧
        |s1.mz.getD p.1 0 - (s2.mz.getD p.2 0 + massDiff s1 s2 k)| ≤ tol := by
  by_cases hc : 0 < (sweepCands s1 s2 tol flag).length
  · have hrw : cosine_fast s1 s2 tol flag =
        (((sortTagged (sweepCands s1 s2 tol flag).enum).foldl accStep (0, [], [], [])).1,
         ((sortTagged (sweepCands s1 s2 tol flag).enum).foldl accStep (0, [], [], [])).2.1) := by
      simp only [cosine_fast]
      rw [if_pos hc]
    rw [hrw]
    have hwf : ∀ x ∈ sortTagged (sweepCands s1 s2 tol flag).enum,
        x.2.1 = wgt s1.intensity s2.intensity (x.2.2.1, x.2.2.2) ∧
        (fun p : ℕ × ℕ => p.1 < s1.mz.length ∧ p.1 < s1.intensity.length ∧
          p.2 < s2.mz.length ∧
          ∃ k, k < numShifts s1 s2 tol flag ∧
            |s1.mz.getD p.1 0 - (s2.mz.getD p.2 0 + massDiff s1 s2 k)| ≤ tol)
          (x.2.2.1, x.2.2.2) := by
      intro x hx
      have hx1 : x ∈ (sweepCands s1 s2 tol flag).enum := (sortTagged_perm _).mem_iff.mp hx
      have hx2 : x.2 ∈ sweepCands s1 s2 tol flag := by
        have := List.mem_map_of_mem Prod.snd hx1
        rwa [List.enum_map_snd] at this
      obtain ⟨hw, hiA, hiA', hiB, hk⟩ := sweepCands_wf s1 s2 tol flag x.2 hx2
      exact ⟨hw, hiA, hiA', hiB, hk⟩
    have hres := accept_foldl_props s1.intensity s2.intensity
      (fun p : ℕ × ℕ => p.1 < s1.mz.length ∧ p.1 < s1.intensity.length ∧
        p.2 < s2.mz.length ∧
        ∃ k, k < numShifts s1 s2 tol flag ∧
          |s1.mz.getD p.1 0 - (s2.mz.getD p.2 0 + massDiff s1 s2 k)| ≤ tol)
      (sortTagged (sweepCands s1 s2 tol flag).enum) hwf (0, [], [], [])
      (by simp) (by simp) (by simp) (by simp) (by simp) (by simp)
    exact hres
  · have hrw : cosine_fast s1 s2 tol flag = (0, []) := by
      simp only [cosine_fast]
      rw [if_neg hc]
    rw [hrw]
    simp

/-! ### Properties of the modelled assignment solver -/

lemma lsaAux_spec (cost : ℕ → ℕ → ℚ) (nB : ℕ) :
    ∀ (i : ℕ) (used : List ℕ),
      (lsaAux cost nB i used).1 = matchCost cost (lsaAux cost nB i used).2 ∧
      ((lsaAux cost nB i used).2.map Prod.fst).Nodup ∧
      ((lsaAux cost nB i used).2.map Prod.snd).Nodup ∧
      ∀ p ∈ (lsaAux cost nB i used).2, p.1 < i ∧ p.2 < nB ∧ p.2 ∉ used := by
  intro i
  induction i with
  | zero =>
    intro used
    simp [lsaAux, matchCost]
  | succ i ih =>
    intro used
    simp only [lsaAux]
    refine @List.foldlRecOn _ _
      (fun best : ℚ × List (ℕ × ℕ) =>
        best.1 = matchCost cost best.2 ∧ (best.2.map Prod.fst).Nodup ∧
        (best.2.map Prod.snd).Nodup ∧
        ∀ p ∈ best.2, p.1 < i + 1 ∧ p.2 < nB ∧ p.2 ∉ used)
      (List.range nB) _ (lsaAux cost nB i used) ?_ ?_
    · obtain ⟨h1, h2, h3, h4⟩ := ih used
      exact ⟨h1, h2, h3, fun p hp =>
        ⟨Nat.lt_succ_of_lt (h4 p hp).1, (h4 p hp).2.1, (h4 p hp).2.2⟩⟩
    · intro best hbest j hj
      dsimp only
      by_cases hju : j ∈ used
      · rw [if_pos hju]
        exact hbest
      · rw [if_neg hju]
        obtain ⟨hr1, hr2, hr3, hr4⟩ := ih (j :: used)
        by_cases hgt : cost i j + (lsaAux cost nB i (j :: used)).1 > best.1
        · rw [if_pos hgt]
          refine ⟨?_, ?_, ?_, ?_⟩
          · simp only [matchCost, List.map_cons, List.sum_cons]
            rw [hr1]
            rfl
          · simp only [List.map_cons]
            rw [List.nodup_cons]
            refine ⟨?_, hr2⟩
            intro hmem
            obtain ⟨p, hp, hpe⟩ := List.mem_map.mp hmem
            exact absurd ((hpe ▸ (hr4 p hp).1) : i < i) (lt_irrefl i)
          · simp only [List.map_cons]
            rw [List.nodup_cons]
            refine ⟨?_, hr3⟩
            intro hmem
            obtain ⟨p, hp, hpe⟩ := List.mem_map.mp hmem
            exact (hr4 p hp).2.2 (hpe ▸ List.mem_cons_self j used)
          · intro p hp
            rcases List.mem_cons.mp hp with hp | hp
            · subst hp
              exact ⟨Nat.lt_succ_self i, List.mem_range.mp hj, hju⟩
            · obtain ⟨ha, hb, hc⟩ := hr4 p hp
              exact ⟨Nat.lt_succ_of_lt ha, hb, fun hmem => hc (List.mem_cons_of_mem j hmem)⟩
        · rw [if_neg hgt]
          exact hbest

lemma lsa_fold_ge_start (cost : ℕ → ℕ → ℚ) (nB i : ℕ) (used : List ℕ) :
    ∀ (l : List ℕ) (b : ℚ × List (ℕ × ℕ)),
      b.1 ≤ (l.foldl (fun best j =>
        if j ∈ used then best
        else
          let r := lsaAux cost nB i (j :: used)
          if cost i j + r.1 > best.1 then (cost i j + r.1, (i, j) :: r.2) else best) b).1 := by
  intro l
  induction l with
  | nil => intro b; exact le_refl _
  | cons j l ih =>
    intro b
    rw [List.foldl_cons]
    refine le_trans ?_ (ih _)
    dsimp only
    by_cases hju : j ∈ used
    · rw [if_pos hju]
    · rw [if_neg hju]
      by_cases hgt : cost i j + (lsaAux cost nB i (j :: used)).1 > b.1
      · rw [if_pos hgt]
        exact le_of_lt hgt
      · rw [if_neg hgt]

lemma lsa_fold_ge_elem (cost : ℕ → ℕ → ℚ) (nB i : ℕ) (used : List ℕ)
    (j₀ : ℕ) (hj₀ : j₀ ∉ used) :
    ∀ (l : List ℕ) (b : ℚ × List (ℕ × ℕ)), j₀ ∈ l →
      cost i j₀ + (lsaAux cost nB i (j₀ :: used)).1 ≤ (l.foldl (fun best j =>
        if j ∈ used then best
        else
          let r := lsaAux cost nB i (j :: used)
          if cost i j + r.1 > best.1 then (cost i j + r.1, (i, j) :: r.2) else best) b).1 := by
  intro l
  induction l with
  | nil =>
    intro b h
    simp at h
  | cons j l ih =>
    intro b hmem
    rw [List.foldl_cons]
    rcases List.mem_cons.mp hmem with he | he
    · subst he
      refine le_trans ?_ (lsa_fold_ge_start cost nB i used l _)
      dsimp only
      rw [if_neg hj₀]
      by_cases hgt : cost i j₀ + (lsaAux cost nB i (j₀ :: used)).1 > b.1
      · rw [if_pos hgt]
      · rw [if_neg hgt]
        exact le_of_not_lt hgt
    · exact ih _ he

lemma lsaAux_ge (cost : ℕ → ℕ → ℚ) (nB : ℕ) :
    ∀ (i : ℕ) (used : List ℕ) (M : List (ℕ × ℕ)),
      (M.map Prod.fst).Nodup → (M.map Prod.snd).Nodup →
      (∀ p ∈ M, p.1 < i ∧ p.2 < nB ∧ p.2 ∉ used) →
      matchCost cost M ≤ (lsaAux cost nB i used).1 := by
  intro i
  induction i with
  | zero =>
    intro used M _ _ h3
    have hM : M = [] := by
      cases M with
      | nil => rfl
      | cons p M => exact absurd (h3 p (List.mem_cons_self p M)).1 (Nat.not_lt_zero p.1)
    subst hM
    simp [matchCost, lsaAux]
  | succ i ih =>
    intro used M h1 h2 h3
    simp only [lsaAux]
    by_cases hex : ∃ j, (i, j) ∈ M
    · obtain ⟨j₀, hj₀⟩ := hex
      have hj₀p := h3 _ hj₀
      have hM : M.Nodup := h1.of_map
      obtain ⟨l₁, l₂, rfl⟩ := List.append_of_mem hj₀
      have hperm : (l₁ ++ (i, j₀) :: l₂).Perm ((i, j₀) :: (l₁ ++ l₂)) := List.perm_middle
      have hsub : (l₁ ++ l₂).Sublist (l₁ ++ (i, j₀) :: l₂) :=
        List.Sublist.append (List.Sublist.refl l₁) (List.sublist_cons_self _ _)
      have hnotmem : (i, j₀) ∉ l₁ ++ l₂ := (List.nodup_cons.mp (List.nodup_middle.mp hM)).1
      have hMsum : matchCost cost (l₁ ++ (i, j₀) :: l₂) =
          cost i j₀ + matchCost cost (l₁ ++ l₂) := by
        unfold matchCost
        rw [(hperm.map fun p => cost p.1 p.2).sum_eq, List.map_cons, List.sum_cons]
      have h1' : ((l₁ ++ l₂).map Prod.fst).Nodup := ((hsub.map _).nodup) h1
      have h2' : ((l₁ ++ l₂).map Prod.snd).Nodup := ((hsub.map _).nodup) h2
      have h3' : ∀ p ∈ l₁ ++ l₂, p.1 < i ∧ p.2 < nB ∧ p.2 ∉ j₀ :: used := by
        intro p hp
        have hpM : p ∈ l₁ ++ (i, j₀) :: l₂ := hsub.subset hp
        have hne : p ≠ (i, j₀) := fun he => hnotmem (he ▸ hp)
        obtain ⟨ha, hb, hc⟩ := h3 p hpM
        refine ⟨?_, hb, ?_⟩
        · rcases Nat.lt_succ_iff_lt_or_eq.mp ha with h | h
          · exact h
          · exfalso
            have := List.inj_on_of_nodup_map h1 hpM hj₀ (by simpa using h)
            exact hne this
        · intro hmem
          rcases List.mem_cons.mp hmem with he | he
          · have := List.inj_on_of_nodup_map h2 hpM hj₀ (by simpa using he)
            exact hne this
          · exact hc he
      have hstep := ih (j₀ :: used) (l₁ ++ l₂) h1' h2' h3'
      rw [hMsum]
      refine le_trans (add_le_add_left hstep _) ?_
      exact lsa_fold_ge_elem cost nB i used j₀ hj₀p.2.2 (List.range nB) _
        (List.mem_range.mpr hj₀p.2.1)
    · push_neg at hex
      have h3'' : ∀ p ∈ M, p.1 < i ∧ p.2 < nB ∧ p.2 ∉ used := by
        intro p hp
        obtain ⟨ha, hb, hc⟩ := h3 p hp
        refine ⟨?_, hb, hc⟩
        rcases Nat.lt_succ_iff_lt_or_eq.mp ha with h | h
        · exact h
        · exfalso
          refine hex p.2 ?_
          rw [← h, Prod.mk.eta]
          exact hp
      refine le_trans (ih used M h1 h2 h3'') ?_
      exact lsa_fold_ge_start cost nB i used (List.range nB) _

/-! ### Cost matrix bounds -/

lemma foldl_maxacc_mono (P : ℕ → Prop) [DecidablePred P] (w : ℚ) :
    ∀ (l : List ℕ) (acc : ℚ), acc ≤ l.foldl (fun a c => if P c then max w a else a) acc := by
  intro l
  induction l with
  | nil => intro acc; exact le_refl _
  | cons c l ih =>
    intro acc
    rw [List.foldl_cons]
    refine le_trans ?_ (ih _)
    dsimp only
    by_cases h : P c
    · rw [if_pos h]
      exact le_max_right _ _
    · rw [if_neg h]

lemma foldl_maxacc_reach (P : ℕ → Prop) [DecidablePred P] (w : ℚ) (k : ℕ) (hP : P k) :
    ∀ (l : List ℕ) (acc : ℚ), k ∈ l →
      w ≤ l.foldl (fun a c => if P c then max w a else a) acc := by
  intro l
  induction l with
  | nil => intro acc h; simp at h
  | cons c l ih =>
    intro acc hmem
    rw [List.foldl_cons]
    rcases List.mem_cons.mp hmem with he | he
    · subst he
      refine le_trans ?_ (foldl_maxacc_mono P w l _)
      dsimp only
      rw [if_pos hP]
      exact le_max_left _ _
    · exact ih _ he

lemma cost_nonneg (s1 s2 : SpectrumTuple) (tol : ℚ) (i j : ℕ) :
    0 ≤ cost s1 s2 tol i j := by
  unfold cost
  exact foldl_maxacc_mono _ _ _ 0

lemma cost_le_abs (s1 s2 : SpectrumTuple) (tol : ℚ) (i j : ℕ) :
    cost s1 s2 tol i j ≤ |s1.intensity.getD i 0| * |s2.intensity.getD j 0| := by
  unfold cost
  refine @List.foldlRecOn _ _
    (fun acc : ℚ => acc ≤ |s1.intensity.getD i 0| * |s2.intensity.getD j 0|)
    (List.range (numShifts s1 s2 tol true)) _ 0
    (mul_nonneg (abs_nonneg _) (abs_nonneg _)) ?_
  intro acc hacc k _
  dsimp only
  by_cases h : |s1.mz.getD i 0 - (s2.mz.getD j 0 + massDiff s1 s2 k)| ≤ tol
  · rw [if_pos h]
    refine max_le ?_ hacc
    calc s1.intensity.getD i 0 * s2.intensity.getD j 0
        ≤ |s1.intensity.getD i 0 * s2.intensity.getD j 0| := le_abs_self _
      _ = |s1.intensity.getD i 0| * |s2.intensity.getD j 0| := abs_mul _ _
  · rw [if_neg h]
    exact hacc

lemma cost_ge_prod (s1 s2 : SpectrumTuple) (tol : ℚ) (i j k : ℕ)
    (hk : k < numShifts s1 s2 tol true)
    (hcond : |s1.mz.getD i 0 - (s2.mz.getD j 0 + massDiff s1 s2 k)| ≤ tol) :
    s1.intensity.getD i 0 * s2.intensity.getD j 0 ≤ cost s1 s2 tol i j := by
  unfold cost
  exact foldl_maxacc_reach _ _ k hcond _ 0 (List.mem_range.mpr hk)

/-! ### Match-list invariants (injectivity and size) -/

lemma cosine_fast_matchlistok (s1 s2 : SpectrumTuple) (tol : ℚ) (flag : Bool) :
    MatchListOk (cosine_fast s1 s2 tol flag).2 s1.mz.length s2.mz.length := by
  obtain ⟨h1, h2, _, h4⟩ := cosine_fast_spec s1 s2 tol flag
  refine ⟨h1, h2, le_min ?_ ?_⟩
  · exact nodup_map_length_le h1 (fun p hp => (h4 p hp).1)
  · exact nodup_map_length_le h2 (fun p hp => (h4 p hp).2.2.1)

lemma matchlistok_mono {r : List (ℕ × ℕ)} {nA nB nA' nB' : ℕ}
    (h : MatchListOk r nA nB) (hA : nA ≤ nA') (hB : nB ≤ nB') :
    MatchListOk r nA' nB' :=
  ⟨h.1, h.2.1, le_trans h.2.2 (min_le_min hA hB)⟩

lemma nl_mz_length_le (s : SpectrumTuple) :
    (spec_to_neutral_loss s).mz.length ≤ s.mz.length := by
  simp only [spec_to_neutral_loss]
  rw [List.length_map, List.length_insertionSort, List.length_map, List.length_zip]
  exact min_le_left _ _

lemma modified_cosine_matchlistok (s1 s2 : SpectrumTuple) (tol : ℚ) :
    MatchListOk (modified_cosine s1 s2 tol).2 s1.mz.length s2.mz.length := by
  obtain ⟨_, h2, h3, h4⟩ := lsaAux_spec (cost s1 s2 tol) s2.mz.length s1.mz.length []
  have hsubl : (modified_cosine s1 s2 tol).2.Sublist
      (lsaAux (cost s1 s2 tol) s2.mz.length s1.mz.length []).2 := by
    simp only [modified_cosine]
    exact List.filter_sublist _
  have hmem : ∀ p ∈ (modified_cosine s1 s2 tol).2,
      p ∈ (lsaAux (cost s1 s2 tol) s2.mz.length s1.mz.length []).2 :=
    fun p hp => hsubl.subset hp
  refine ⟨(hsubl.map _).nodup h2, (hsubl.map _).nodup h3, le_min ?_ ?_⟩
  · exact nodup_map_length_le ((hsubl.map _).nodup h2)
      (fun p hp => (h4 p (hmem p hp)).1)
  · exact nodup_map_length_le ((hsubl.map _).nodup h3)
      (fun p hp => (h4 p (hmem p hp)).2.1)

/-- C6: for every pair of input spectra and every tolerance, each of the
five variants returns a match list in which no index of spectrum 1 appears
twice and no index of spectrum 2 appears twice, hence of length at most
`min(N_A, N_B)` (peak counts of the two input spectra). -/
theorem C6_injective_matches (s1 s2 : SpectrumTuple) (tol : ℚ) :
    MatchListOk (cosine s1 s2 tol).2 s1.mz.length s2.mz.length ∧
    MatchListOk (modified_cosine s1 s2 tol).2 s1.mz.length s2.mz.length ∧
    MatchListOk (modified_cosine_greedy s1 s2 tol).2 s1.mz.length s2.mz.length ∧
    MatchListOk (neutral_loss s1 s2 tol).2 s1.mz.length s2.mz.length ∧
    MatchListOk (modified_neutral_loss s1 s2 tol).2 s1.mz.length s2.mz.length := by
  refine ⟨cosine_fast_matchlistok s1 s2 tol false,
    modified_cosine_matchlistok s1 s2 tol,
    cosine_fast_matchlistok s1 s2 tol true, ?_, ?_⟩
  · exact matchlistok_mono
      (cosine_fast_matchlistok (spec_to_neutral_loss s1) (spec_to_neutral_loss s2) tol false)
      (nl_mz_length_le s1) (nl_mz_length_le s2)
  · exact matchlistok_mono
      (cosine_fast_matchlistok (spec_to_neutral_loss s1) (spec_to_neutral_loss s2) tol true)
      (nl_mz_length_le s1) (nl_mz_length_le s2)

/-! ### Optimal assignment dominates the greedy matcher -/

/-- C4: on identical inputs the optimal-assignment variant never scores
below the greedy shift-tolerant variant: the greedy match set is one of
the one-to-one matchings over which the assignment solver maximises, and
each matched pair's weight is dominated by its cost cell. -/
theorem C4_optimal_ge_greedy (s1 s2 : SpectrumTuple) (tol : ℚ) :
    (modified_cosine_greedy s1 s2 tol).1 ≤ (modified_cosine s1 s2 tol).1 := by
  obtain ⟨h1, h2, h3, h4⟩ := cosine_fast_spec s1 s2 tol true
  have hscore : (modified_cosine s1 s2 tol).1 =
      (lsaAux (cost s1 s2 tol) s2.mz.length s1.mz.length []).1 := by
    simp only [modified_cosine]
  have hpoint : ∀ p ∈ (cosine_fast s1 s2 tol true).2,
      wgt s1.intensity s2.intensity p ≤ cost s1 s2 tol p.1 p.2 := by
    intro p hp
    obtain ⟨_, _, _, k, hk, hcond⟩ := h4 p hp
    exact cost_ge_prod s1 s2 tol p.1 p.2 k hk hcond
  have hsum : ((cosine_fast s1 s2 tol true).2.map (wgt s1.intensity s2.intensity)).sum ≤
      matchCost (cost s1 s2 tol) (cosine_fast s1 s2 tol true).2 := by
    unfold matchCost
    exact List.sum_le_sum hpoint
  have hvalid := lsaAux_ge (cost s1 s2 tol) s2.mz.length s1.mz.length []
    (cosine_fast s1 s2 tol true).2 h1 h2
    (fun p hp => ⟨(h4 p hp).1, (h4 p hp).2.2.1, by simp⟩)
  have hgr : modified_cosine_greedy s1 s2 tol = cosine_fast s1 s2 tol true := rfl
  rw [hgr, h3, hscore]
  exact le_trans hsum hvalid

/-! ### Score bounds via the AM-GM inequality -/

lemma sum_range_getD_sq (a : List ℚ) :
    ∑ i ∈ Finset.range a.length, (a.getD i 0) ^ 2 = sumSq a := by
  induction a with
  | nil => simp [sumSq]
  | cons x a ih =>
    have hl : (x :: a).length = a.length + 1 := rfl
    rw [hl, Finset.sum_range_succ']
    simp only [List.getD_cons_succ, List.getD_cons_zero]
    rw [ih]
    simp only [sumSq, List.map_cons, List.sum_cons]
    ring

lemma getD_sq_sum_le (a : List ℚ) (idx : List ℕ) (h1 : idx.Nodup)
    (h2 : ∀ i ∈ idx, i < a.length) :
    (idx.map fun i => (a.getD i 0) ^ 2).sum ≤ sumSq a := by
  rw [← List.sum_toFinset _ h1]
  refine le_trans (Finset.sum_le_sum_of_subset_of_nonneg ?_ ?_)
    (le_of_eq (sum_range_getD_sq a))
  · intro x hx
    rw [List.mem_toFinset] at hx
    exact Finset.mem_range.mpr (h2 x hx)
  · intro i _ _
    exact sq_nonneg _

lemma sum_map_two_mul {α : Type} (l : List α) (f : α → ℚ) :
    (l.map fun x => 2 * f x).sum = 2 * (l.map f).sum := by
  induction l with
  | nil => simp
  | cons x l ih => simp only [List.map_cons, List.sum_cons, ih]; ring

lemma matched_sum_le_one (a b : List ℚ) (M : List (ℕ × ℕ))
    (hA : (M.map Prod.fst).Nodup) (hB : (M.map Prod.snd).Nodup)
    (hiA : ∀ p ∈ M, p.1 < a.length) (hiB : ∀ p ∈ M, p.2 < b.length)
    (ha : sumSq a = 1) (hb : sumSq b = 1) :
    (M.map fun p => |a.getD p.1 0| * |b.getD p.2 0|).sum ≤ 1 := by
  have hterm : ∀ p ∈ M, 2 * (|a.getD p.1 0| * |b.getD p.2 0|) ≤
      (a.getD p.1 0) ^ 2 + (b.getD p.2 0) ^ 2 := by
    intro p _
    have := two_mul_le_add_sq |a.getD p.1 0| |b.getD p.2 0|
    rw [sq_abs, sq_abs] at this
    calc 2 * (|a.getD p.1 0| * |b.getD p.2 0|)
        = 2 * |a.getD p.1 0| * |b.getD p.2 0| := by ring
      _ ≤ _ := this
  have hsum := List.sum_le_sum hterm
  rw [sum_map_two_mul] at hsum
  have hsplit : (M.map fun p => (a.getD p.1 0) ^ 2 + (b.getD p.2 0) ^ 2).sum =
      (M.map fun p => (a.getD p.1 0) ^ 2).sum + (M.map fun p => (b.getD p.2 0) ^ 2).sum :=
    sum_map_add M _ _
  have hT1 : (M.map fun p => (a.getD p.1 0) ^ 2).sum ≤ 1 := by
    have hmm : (M.map fun p => (a.getD p.1 0) ^ 2) =
        (M.map Prod.fst).map fun i => (a.getD i 0) ^ 2 := by
      rw [List.map_map]
      rfl
    rw [hmm, ← ha]
    refine getD_sq_sum_le a (M.map Prod.fst) hA ?_
    intro i hi
    obtain ⟨p, hp, rfl⟩ := List.mem_map.mp hi
    exact hiA p hp
  have hT2 : (M.map fun p => (b.getD p.2 0) ^ 2).sum ≤ 1 := by
    have hmm : (M.map fun p => (b.getD p.2 0) ^ 2) =
        (M.map Prod.snd).map fun j => (b.getD j 0) ^ 2 := by
      rw [List.map_map]
      rfl
    rw [hmm, ← hb]
    refine getD_sq_sum_le b (M.map Prod.snd) hB ?_
    intro j hj
    obtain ⟨p, hp, rfl⟩ := List.mem_map.mp hj
    exact hiB p hp
  rw [hsplit] at hsum
  linarith

lemma cosine_fast_score_bounds (s1 s2 : SpectrumTuple) (tol : ℚ) (flag : Bool)
    (hl2 : s2.intensity.length = s2.mz.length)
    (hn1 : sumSq s1.intensity = 1) (hn2 : sumSq s2.intensity = 1)
    (hp1 : ∀ x ∈ s1.intensity, 0 ≤ x) (hp2 : ∀ x ∈ s2.intensity, 0 ≤ x) :
    0 ≤ (cosine_fast s1 s2 tol flag).1 ∧ (cosine_fast s1 s2 tol flag).1 ≤ 1 := by
  obtain ⟨h1, h2, h3, h4⟩ := cosine_fast_spec s1 s2 tol flag
  constructor
  · rw [h3]
    refine List.sum_nonneg ?_
    intro x hx
    obtain ⟨p, _, rfl⟩ := List.mem_map.mp hx
    exact mul_nonneg (getD_nonneg hp1 _) (getD_nonneg hp2 _)
  · rw [h3]
    refine le_trans (List.sum_le_sum ?_)
      (matched_sum_le_one s1.intensity s2.intensity _ h1 h2
        (fun p hp => (h4 p hp).2.1)
        (fun p hp => hl2 ▸ (h4 p hp).2.2.1) hn1 hn2)
    intro p _
    unfold wgt
    calc s1.intensity.getD p.1 0 * s2.intensity.getD p.2 0
        ≤ |s1.intensity.getD p.1 0 * s2.intensity.getD p.2 0| := le_abs_self _
      _ = |s1.intensity.getD p.1 0| * |s2.intensity.getD p.2 0| := abs_mul _ _

lemma modified_cosine_score_bounds (s1 s2 : SpectrumTuple) (tol : ℚ)
    (hl1 : s1.intensity.length = s1.mz.length) (hl2 : s2.intensity.length = s2.mz.length)
    (hn1 : sumSq s1.intensity = 1) (hn2 : sumSq s2.intensity = 1) :
    0 ≤ (modified_cosine s1 s2 tol).1 ∧ (modified_cosine s1 s2 tol).1 ≤ 1 := by
  obtain ⟨h1, h2, h3, h4⟩ := lsaAux_spec (cost s1 s2 tol) s2.mz.length s1.mz.length []
  have hscore : (modified_cosine s1 s2 tol).1 =
      matchCost (cost s1 s2 tol) (lsaAux (cost s1 s2 tol) s2.mz.length s1.mz.length []).2 := by
    simp only [modified_cosine]
    exact h1
  constructor
  · rw [hscore]
    refine List.sum_nonneg ?_
    intro x hx
    obtain ⟨p, _, rfl⟩ := List.mem_map.mp hx
    exact cost_nonneg s1 s2 tol p.1 p.2
  · rw [hscore]
    unfold matchCost
    refine le_trans (List.sum_le_sum ?_)
      (matched_sum_le_one s1.intensity s2.intensity _ h2 h3
        (fun p hp => hl1 ▸ (h4 p hp).1)
        (fun p hp => hl2 ▸ (h4 p hp).2.1) hn1 hn2)
    intro p _
    exact cost_le_abs s1 s2 tol p.1 p.2

/-! ### Facts about the neutral-loss transformation -/

lemma nl_intensity_perm (s : SpectrumTuple) (hlen : s.intensity.length = s.mz.length) :
    ((spec_to_neutral_loss s).intensity).Perm s.intensity := by
  simp only [spec_to_neutral_loss]
  have hperm := (List.perm_insertionSort pairLe
    ((s.mz.zip s.intensity).map fun p => (s.precursor_mz - p.1, p.2))).map Prod.snd
  refine hperm.trans ?_
  rw [List.map_map]
  have hcomp : (Prod.snd ∘ fun p : ℚ × ℚ => (s.precursor_mz - p.1, p.2)) =
      (Prod.snd : ℚ × ℚ → ℚ) := funext fun p => rfl
  rw [hcomp, List.map_snd_zip _ _ (le_of_eq hlen)]

lemma nl_sumSq (s : SpectrumTuple) (hlen : s.intensity.length = s.mz.length) :
    sumSq (spec_to_neutral_loss s).intensity = sumSq s.intensity := by
  unfold sumSq
  exact ((nl_intensity_perm s hlen).map _).sum_eq

lemma nl_nonneg (s : SpectrumTuple) (hlen : s.intensity.length = s.mz.length)
    (hp : ∀ x ∈ s.intensity, 0 ≤ x) :
    ∀ x ∈ (spec_to_neutral_loss s).intensity, 0 ≤ x :=
  fun x hx => hp x ((nl_intensity_perm s hlen).mem_iff.mp hx)

lemma nl_len_eq (s : SpectrumTuple) :
    (spec_to_neutral_loss s).intensity.length = (spec_to_neutral_loss s).mz.length := by
  simp only [spec_to_neutral_loss]
  rw [List.length_map, List.length_map]

/-- C1: for L2-normalised nonnegative intensity vectors (the engine state
after the caller-level division by the norm) with matching array lengths,
the score of each of the five variants lies in the closed interval
`[0, 1]`. -/
theorem C1_score_bounds (s1 s2 : SpectrumTuple) (tol : ℚ)
    (hl1 : s1.intensity.length = s1.mz.length) (hl2 : s2.intensity.length = s2.mz.length)
    (hn1 : sumSq s1.intensity = 1) (hn2 : sumSq s2.intensity = 1)
    (hp1 : ∀ x ∈ s1.intensity, 0 ≤ x) (hp2 : ∀ x ∈ s2.intensity, 0 ≤ x) :
    (0 ≤ (cosine s1 s2 tol).1 ∧ (cosine s1 s2 tol).1 ≤ 1) ∧
    (0 ≤ (modified_cosine s1 s2 tol).1 ∧ (modified_cosine s1 s2 tol).1 ≤ 1) ∧
    (0 ≤ (modified_cosine_greedy s1 s2 tol).1 ∧ (modified_cosine_greedy s1 s2 tol).1 ≤ 1) ∧
    (0 ≤ (neutral_loss s1 s2 tol).1 ∧ (neutral_loss s1 s2 tol).1 ≤ 1) ∧
    (0 ≤ (modified_neutral_loss s1 s2 tol).1 ∧ (modified_neutral_loss s1 s2 tol).1 ≤ 1) := by
  refine ⟨cosine_fast_score_bounds s1 s2 tol false hl2 hn1 hn2 hp1 hp2,
    modified_cosine_score_bounds s1 s2 tol hl1 hl2 hn1 hn2,
    cosine_fast_score_bounds s1 s2 tol true hl2 hn1 hn2 hp1 hp2, ?_, ?_⟩
  · exact cosine_fast_score_bounds (spec_to_neutral_loss s1) (spec_to_neutral_loss s2) tol
      false (nl_len_eq s2) (by rw [nl_sumSq s1 hl1]; exact hn1)
      (by rw [nl_sumSq s2 hl2]; exact hn2) (nl_nonneg s1 hl1 hp1) (nl_nonneg s2 hl2 hp2)
  · exact cosine_fast_score_bounds (spec_to_neutral_loss s1) (spec_to_neutral_loss s2) tol
      true (nl_len_eq s2) (by rw [nl_sumSq s1 hl1]; exact hn1)
      (by rw [nl_sumSq s2 hl2]; exact hn2) (nl_nonneg s1 hl1 hp1) (nl_nonneg s2 hl2 hp2)

/-- Witness for C1 at a concrete normalised two-peak spectrum pair. -/
theorem C1_score_bounds_witness :
    (0 ≤ (cosine ⟨0, 1, [100, 200], [3/5, 4/5]⟩ ⟨0, 1, [100, 200], [3/5, 4/5]⟩ (1/100)).1 ∧
      (cosine ⟨0, 1, [100, 200], [3/5, 4/5]⟩ ⟨0, 1, [100, 200], [3/5, 4/5]⟩ (1/100)).1 ≤ 1) ∧
    (0 ≤ (modified_cosine ⟨0, 1, [100, 200], [3/5, 4/5]⟩ ⟨0, 1, [100, 200], [3/5, 4/5]⟩ (1/100)).1 ∧
      (modified_cosine ⟨0, 1, [100, 200], [3/5, 4/5]⟩ ⟨0, 1, [100, 200], [3/5, 4/5]⟩ (1/100)).1 ≤ 1) ∧
    (0 ≤ (modified_cosine_greedy ⟨0, 1, [100, 200], [3/5, 4/5]⟩ ⟨0, 1, [100, 200], [3/5, 4/5]⟩ (1/100)).1 ∧
      (modified_cosine_greedy ⟨0, 1, [100, 200], [3/5, 4/5]⟩ ⟨0, 1, [100, 200], [3/5, 4/5]⟩ (1/100)).1 ≤ 1) ∧
    (0 ≤ (neutral_loss ⟨0, 1, [100, 200], [3/5, 4/5]⟩ ⟨0, 1, [100, 200], [3/5, 4/5]⟩ (1/100)).1 ∧
      (neutral_loss ⟨0, 1, [100, 200], [3/5, 4/5]⟩ ⟨0, 1, [100, 200], [3/5, 4/5]⟩ (1/100)).1 ≤ 1) ∧
    (0 ≤ (modified_neutral_loss ⟨0, 1, [100, 200], [3/5, 4/5]⟩ ⟨0, 1, [100, 200], [3/5, 4/5]⟩ (1/100)).1 ∧
      (modified_neutral_loss ⟨0, 1, [100, 200], [3/5, 4/5]⟩ ⟨0, 1, [100, 200], [3/5, 4/5]⟩ (1/100)).1 ≤ 1) :=
  C1_score_bounds ⟨0, 1, [100, 200], [3/5, 4/5]⟩ ⟨0, 1, [100, 200], [3/5, 4/5]⟩ (1/100)
    rfl rfl (by decide) (by decide) (by decide) (by decide)

/-! ### Symmetry of the optimal variant under equal precursor charges -/

lemma numShifts_symm (s1 s2 : SpectrumTuple) (tol : ℚ)
    (h : s1.precursor_charge = s2.precursor_charge) :
    numShifts s2 s1 tol true = numShifts s1 s2 tol true := by
  unfold numShifts
  have habs : |precursorMassDiff s2 s1| = |precursorMassDiff s1 s2| := by
    unfold precursorMassDiff
    rw [← h]
    rw [show s2.precursor_mz - s1.precursor_mz = -(s1.precursor_mz - s2.precursor_mz) by ring]
    rw [neg_mul, abs_neg]
  rw [habs, ← h]

lemma massDiff_symm (s1 s2 : SpectrumTuple) (c : ℕ)
    (h : s1.precursor_charge = s2.precursor_charge) :
    massDiff s2 s1 c = -massDiff s1 s2 c := by
  unfold massDiff
  by_cases hc : c = 0
  · simp [hc]
  · rw [if_neg hc, if_neg hc]
    unfold precursorMassDiff
    rw [← h]
    ring

lemma cost_symm (s1 s2 : SpectrumTuple) (tol : ℚ)
    (h : s1.precursor_charge = s2.precursor_charge) (i j : ℕ) :
    cost s2 s1 tol j i = cost s1 s2 tol i j := by
  unfold cost
  rw [numShifts_symm s1 s2 tol h]
  have hstep : ∀ (l : List ℕ) (acc : ℚ),
      l.foldl (fun acc c =>
        if |s2.mz.getD j 0 - (s1.mz.getD i 0 + massDiff s2 s1 c)| ≤ tol then
          max (s2.intensity.getD j 0 * s1.intensity.getD i 0) acc
        else acc) acc =
      l.foldl (fun acc c =>
        if |s1.mz.getD i 0 - (s2.mz.getD j 0 + massDiff s1 s2 c)| ≤ tol then
          max (s1.intensity.getD i 0 * s2.intensity.getD j 0) acc
        else acc) acc := by
    intro l
    induction l with
    | nil => intro acc; rfl
    | cons c l ih =>
      intro acc
      rw [List.foldl_cons, List.foldl_cons, ih]
      congr 1
      rw [massDiff_symm s1 s2 c h,
        show s2.mz.getD j 0 - (s1.mz.getD i 0 + -massDiff s1 s2 c) =
          -(s1.mz.getD i 0 - (s2.mz.getD j 0 + massDiff s1 s2 c)) by ring,
        abs_neg, mul_comm (s2.intensity.getD j 0)]
  exact hstep _ 0

lemma lsa_swap_le (cA cB : ℕ → ℕ → ℚ) (nA nB : ℕ) (hc : ∀ i j, cB j i = cA i j) :
    (lsaAux cB nA nB []).1 ≤ (lsaAux cA nB nA []).1 := by
  obtain ⟨h1, h2, h3, h4⟩ := lsaAux_spec cB nA nB []
  rw [h1]
  have hM : matchCost cB (lsaAux cB nA nB []).2 =
      matchCost cA ((lsaAux cB nA nB []).2.map Prod.swap) := by
    unfold matchCost
    rw [List.map_map]
    congr 1
    refine List.map_congr_left ?_
    intro p _
    show cB p.1 p.2 = cA p.2 p.1
    exact hc p.2 p.1
  rw [hM]
  refine lsaAux_ge cA nB nA [] _ ?_ ?_ ?_
  · rw [List.map_map]
    exact h3
  · rw [List.map_map]
    exact h2
  · intro p hp
    obtain ⟨q, hq, rfl⟩ := List.mem_map.mp hp
    exact ⟨(h4 q hq).2.1, (h4 q hq).1, by simp⟩

/-! ### The uint16 cursors never wrap within the interface limit -/

lemma advanceU16_eq_advanceNat (pmz tol shift : ℚ) (mzB : List ℚ)
    (hB : mzB.length ≤ 65536) :
    ∀ (f c : ℕ), advanceU16 pmz tol shift mzB f c = advanceNat pmz tol shift mzB f c := by
  intro f
  induction f with
  | zero => intro c; rfl
  | succ f ih =>
    intro c
    rw [advanceU16, advanceNat]
    by_cases h : (c : ℤ) < (mzB.length : ℤ) - 1 ∧ mzB.getD c 0 + shift < pmz - tol
    · rw [if_pos h, if_pos h]
      have hc1 : c + 1 < 65536 := by
        have h2 := h.1
        omega
      rw [Nat.mod_eq_of_lt hc1]
      exact ih _
    · rw [if_neg h, if_neg h]

lemma advanceNat_le (pmz tol shift : ℚ) (mzB : List ℚ) :
    ∀ (f c : ℕ), c ≤ mzB.length - 1 →
      advanceNat pmz tol shift mzB f c ≤ mzB.length - 1 := by
  intro f
  induction f with
  | zero => intro c hc; exact hc
  | succ f ih =>
    intro c hc
    rw [advanceNat]
    by_cases h : (c : ℤ) < (mzB.length : ℤ) - 1 ∧ mzB.getD c 0 + shift < pmz - tol
    · rw [if_pos h]
      refine ih _ ?_
      have h2 := h.1
      omega
    · rw [if_neg h]
      exact hc

lemma scanl_cursor_facts (so : SpectrumTuple) (tol : ℚ) (numS : ℕ) (md : ℕ → ℚ)
    (hB : so.mz.length ≤ 65536) :
    ∀ (peaks : List (ℕ × ℚ × ℚ)) (st : List ℕ × List (ℚ × ℕ × ℕ)),
      (∀ c ∈ st.1, c ≤ so.mz.length - 1) →
      peaks.scanl (processPeak so tol numS md) st =
        peaks.scanl (processPeakNat so tol numS md) st ∧
      ∀ st' ∈ peaks.scanl (processPeak so tol numS md) st,
        ∀ c ∈ st'.1, c ≤ so.mz.length - 1 := by
  intro peaks
  induction peaks with
  | nil =>
    intro st hst
    refine ⟨rfl, ?_⟩
    intro st' hst'
    rw [List.scanl_nil, List.mem_singleton] at hst'
    subst hst'
    exact hst
  | cons pk peaks ih =>
    intro st hst
    rw [List.scanl_cons, List.scanl_cons]
    have hstep_eq : processPeak so tol numS md st pk = processPeakNat so tol numS md st pk := by
      simp only [processPeak, processPeakNat]
      rw [List.map_congr_left fun c _ =>
        advanceU16_eq_advanceNat pk.2.1 tol (md c) so.mz hB so.mz.length (st.1.getD c 0)]
    have hnewbound : ∀ c ∈ (processPeak so tol numS md st pk).1, c ≤ so.mz.length - 1 := by
      intro c hc
      simp only [processPeak] at hc
      obtain ⟨k, _, rfl⟩ := List.mem_map.mp hc
      rw [advanceU16_eq_advanceNat pk.2.1 tol (md k) so.mz hB]
      refine advanceNat_le pk.2.1 tol (md k) so.mz _ _ ?_
      by_cases hkl : k < st.1.length
      · rw [List.getD_eq_getElem _ 0 hkl]
        exact hst _ (List.getElem_mem hkl)
      · rw [List.getD_eq_default _ 0 (le_of_not_lt hkl)]
        exact Nat.zero_le _
    obtain ⟨ih1, ih2⟩ := ih (processPeak so tol numS md st pk) hnewbound
    refine ⟨?_, ?_⟩
    · rw [ih1, hstep_eq]
    · intro st' hst'
      rcases List.mem_append.mp hst' with hmem | hmem
      · rw [List.mem_singleton] at hmem
        subst hmem
        exact hst
      · exact ih2 st' hmem

/-- C10: the source stores the per-shift cursors into spectrum 2 as
unsigned 16-bit integers (`np.uint16`), so cursor increments are reduced
modulo `2 ^ 16`; for every input in which spectrum 2 has at most 65536
peaks, the sweep computed with modular cursors equals the sweep computed
with exact natural-number cursors (the arithmetic never wraps) and every
cursor stays within `[0, len(B.mz) - 1]` throughout the trace. -/
theorem C10_cursor_uint16 (s1 s2 : SpectrumTuple) (tol : ℚ) (flag : Bool)
    (hB : s2.mz.length ≤ 65536) :
    sweepTrace s1 s2 tol flag = sweepTraceNat s1 s2 tol flag ∧
    ∀ st ∈ sweepTrace s1 s2 tol flag, ∀ c ∈ st.1, c ≤ s2.mz.length - 1 := by
  have h0 : ∀ c ∈ (List.range (numShifts s1 s2 tol flag)).map fun _ => (0 : ℕ),
      c ≤ s2.mz.length - 1 := by
    intro c hc
    obtain ⟨_, _, rfl⟩ := List.mem_map.mp hc
    exact Nat.zero_le _
  obtain ⟨h1, h2⟩ := scanl_cursor_facts s2 tol (numShifts s1 s2 tol flag)
    (massDiff s1 s2) hB (List.enum (s1.mz.zip s1.intensity))
    ((List.range (numShifts s1 s2 tol flag)).map fun _ => (0 : ℕ), ([] : List (ℚ × ℕ × ℕ)))
    h0
  exact ⟨h1, h2⟩

/-- Witness for C10 at a concrete two-peak input. -/
theorem C10_cursor_uint16_witness :
    sweepTrace ⟨0, 1, [100, 200], [3/5, 4/5]⟩ ⟨0, 1, [100, 200], [3/5, 4/5]⟩ (1/100) false =
      sweepTraceNat ⟨0, 1, [100, 200], [3/5, 4/5]⟩ ⟨0, 1, [100, 200], [3/5, 4/5]⟩ (1/100) false ∧
    ∀ st ∈ sweepTrace ⟨0, 1, [100, 200], [3/5, 4/5]⟩ ⟨0, 1, [100, 200], [3/5, 4/5]⟩ (1/100) false,
      ∀ c ∈ st.1, c ≤ (⟨0, 1, [100, 200], [3/5, 4/5]⟩ : SpectrumTuple).mz.length - 1 :=
  C10_cursor_uint16 ⟨0, 1, [100, 200], [3/5, 4/5]⟩ ⟨0, 1, [100, 200], [3/5, 4/5]⟩ (1/100) false
    (by decide)

/-! ### Self-similarity of well-separated spectra -/

lemma numShifts_false (s1 s2 : SpectrumTuple) (tol : ℚ) :
    numShifts s1 s2 tol false = 1 := by
  unfold numShifts
  rw [if_neg]
  rintro ⟨h, -⟩
  exact Bool.false_ne_true h

lemma advanceNat_reaches (mz : List ℚ) (tol : ℚ) (htol : 0 < tol)
    (hgap : ∀ j, j < mz.length → ∀ i, i < j → mz.getD i 0 + 2 * tol < mz.getD j 0)
    (k : ℕ) (hk : k < mz.length) :
    ∀ (f c : ℕ), c ≤ k → k - c ≤ f → advanceNat (mz.getD k 0) tol 0 mz f c = k := by
  intro f
  induction f with
  | zero =>
    intro c hc hf
    have hck : c = k := by omega
    subst hck
    rfl
  | succ f ih =>
    intro c hc hf
    rw [advanceNat]
    by_cases hck : c = k
    · subst hck
      rw [if_neg]
      rintro ⟨-, h2⟩
      have : mz.getD c 0 + 0 = mz.getD c 0 := by ring
      rw [this] at h2
      linarith
    · have hclt : c < k := lt_of_le_of_ne hc hck
      have hcond : (c : ℤ) < (mz.length : ℤ) - 1 ∧ mz.getD c 0 + 0 < mz.getD k 0 - tol := by
        constructor
        · omega
        · have hg := hgap k hk c hclt
          linarith
      rw [if_pos hcond]
      exact ih (c + 1) hclt (by omega)

lemma scanFrom_stop (mz int : List ℚ) (tol : ℚ) (htol : 0 < tol)
    (hgap : ∀ j, j < mz.length → ∀ i, i < j → mz.getD i 0 + 2 * tol < mz.getD j 0)
    (k : ℕ) (hk : k < mz.length) (f : ℕ) :
    scanFrom k (mz.getD k 0) (int.getD k 0) tol 0 mz int k f 1 = [] := by
  cases f with
  | zero => rfl
  | succ f =>
    rw [scanFrom]
    rw [if_neg]
    rintro ⟨h1, h2⟩
    have hg := hgap (k + 1) h1 k (Nat.lt_succ_self k)
    have habs : |mz.getD k 0 - (mz.getD (k + 1) 0 + 0)| =
        mz.getD (k + 1) 0 - mz.getD k 0 := by
      rw [abs_sub_comm]
      rw [abs_of_nonneg]
      · ring
      · nlinarith
    rw [habs] at h2
    linarith

lemma scanFrom_diag (mz int : List ℚ) (tol : ℚ) (htol : 0 < tol)
    (hgap : ∀ j, j < mz.length → ∀ i, i < j → mz.getD i 0 + 2 * tol < mz.getD j 0)
    (k : ℕ) (hk : k < mz.length) :
    scanFrom k (mz.getD k 0) (int.getD k 0) tol 0 mz int k (mz.length + 1) 0 =
      [(int.getD k 0 * int.getD k 0, k, k)] := by
  have hcond : k + 0 < mz.length ∧ |mz.getD k 0 - (mz.getD (k + 0) 0 + 0)| ≤ tol := by
    constructor
    · simpa using hk
    · have harg : mz.getD k 0 - (mz.getD (k + 0) 0 + 0) = 0 := by
        rw [Nat.add_zero]
        ring
      rw [harg, abs_zero]
      exact le_of_lt htol
  rw [scanFrom, if_pos hcond,
    show (0 : ℕ) + 1 = 1 from rfl,
    scanFrom_stop mz int tol htol hgap k hk mz.length]
  rfl

lemma processPeak_diag (S : SpectrumTuple) (tol : ℚ) (htol : 0 < tol)
    (hgap : ∀ j, j < S.mz.length → ∀ i, i < j → S.mz.getD i 0 + 2 * tol < S.mz.getD j 0)
    (hcap : S.mz.length ≤ 65536)
    (k c : ℕ) (hk : k < S.mz.length) (hc : c ≤ k) (acc : List (ℚ × ℕ × ℕ)) :
    processPeak S tol 1 (massDiff S S) ([c], acc)
      (k, S.mz.getD k 0, S.intensity.getD k 0) =
      ([k], acc ++ [(S.intensity.getD k 0 * S.intensity.getD k 0, k, k)]) := by
  have hmd : massDiff S S 0 = 0 := rfl
  have hadv : advanceU16 (S.mz.getD k 0) tol (massDiff S S 0) S.mz S.mz.length c = k := by
    rw [hmd, advanceU16_eq_advanceNat _ _ _ _ hcap]
    exact advanceNat_reaches S.mz tol htol hgap k hk S.mz.length c hc (by omega)
  have hr1 : List.range 1 = [0] := rfl
  simp only [processPeak, hr1, List.map_cons, List.map_nil, List.getD_cons_zero]
  rw [hadv]
  rw [hmd, scanFrom_diag S.mz S.intensity tol htol hgap k hk]
  rfl

lemma sweep_diag_aux (S : SpectrumTuple) (tol : ℚ) (htol : 0 < tol)
    (hgap : ∀ j, j < S.mz.length → ∀ i, i < j → S.mz.getD i 0 + 2 * tol < S.mz.getD j 0)
    (hcap : S.mz.length ≤ 65536) :
    ∀ (L : List (ℚ × ℚ)) (k c : ℕ) (acc : List (ℚ × ℕ × ℕ)),
      k + L.length = S.mz.length →
      (∀ m, m < L.length → L.getD m (0, 0) =
        (S.mz.getD (k + m) 0, S.intensity.getD (k + m) 0)) →
      c ≤ k →
      ((List.enumFrom k L).foldl (processPeak S tol 1 (massDiff S S)) ([c], acc)).2 =
        acc ++ diagFrom S.intensity k L.length := by
  intro L
  induction L with
  | nil =>
    intro k c acc _ _ _
    simp [diagFrom]
  | cons p L ih =>
    intro k c acc hklen hL hc
    rw [List.enumFrom_cons, List.foldl_cons]
    have hk : k < S.mz.length := by
      rw [List.length_cons] at hklen
      omega
    have hp : p = (S.mz.getD k 0, S.intensity.getD k 0) := by
      have h0 := hL 0 (by rw [List.length_cons]; exact Nat.succ_pos _)
      simpa using h0
    rw [hp, processPeak_diag S tol htol hgap hcap k c hk hc acc]
    have hL' : ∀ m, m < L.length → L.getD m (0, 0) =
        (S.mz.getD (k + 1 + m) 0, S.intensity.getD (k + 1 + m) 0) := by
      intro m hm
      have hmem := hL (m + 1) (by rw [List.length_cons]; omega)
      rw [List.getD_cons_succ] at hmem
      rw [hmem]
      have : k + (m + 1) = k + 1 + m := by omega
      rw [this]
    have hklen' : k + 1 + L.length = S.mz.length := by
      rw [List.length_cons] at hklen
      omega
    rw [ih (k + 1) k (acc ++ [(S.intensity.getD k 0 * S.intensity.getD k 0, k, k)])
      hklen' hL' (Nat.le_succ k)]
    rw [List.append_assoc, List.length_cons]
    rfl

lemma sweepCands_diag (S : SpectrumTuple) (tol : ℚ) (htol : 0 < tol)
    (hlen : S.intensity.length = S.mz.length)
    (hgap : ∀ j, j < S.mz.length → ∀ i, i < j → S.mz.getD i 0 + 2 * tol < S.mz.getD j 0)
    (hcap : S.mz.length ≤ 65536) :
    sweepCands S S tol false = diagFrom S.intensity 0 S.mz.length := by
  simp only [sweepCands]
  rw [numShifts_false]
  have hzlen : (S.mz.zip S.intensity).length = S.mz.length := by
    rw [List.length_zip, hlen, min_self]
  have hinit : ((List.range 1).map fun _ => (0 : ℕ)) = [0] := rfl
  rw [hinit]
  have henum : List.enum (S.mz.zip S.intensity) =
      List.enumFrom 0 (S.mz.zip S.intensity) := rfl
  rw [henum]
  have hfold := sweep_diag_aux S tol htol hgap hcap (S.mz.zip S.intensity) 0 0 []
    (by rw [hzlen]; omega) ?_ (le_refl 0)
  · rw [hfold, List.nil_append, hzlen]
  · intro m hm
    simp only [Nat.zero_add]
    have hm' : m < S.mz.length := by rwa [hzlen] at hm
    have hm2 : m < S.intensity.length := by rwa [hlen]
    rw [List.getD_eq_getElem _ _ hm, List.getElem_zip,
      List.getD_eq_getElem _ _ hm', List.getD_eq_getElem _ _ hm2]

lemma diagFrom_length (y : List ℚ) : ∀ (m k : ℕ), (diagFrom y k m).length = m := by
  intro m
  induction m with
  | zero => intro k; rfl
  | succ m ih =>
    intro k
    rw [diagFrom, List.length_cons, ih]

lemma diagFrom_mem (y : List ℚ) :
    ∀ (m k : ℕ) (c : ℚ × ℕ × ℕ), c ∈ diagFrom y k m →
      ∃ t, t < m ∧ c = (y.getD (k + t) 0 * y.getD (k + t) 0, k + t, k + t) := by
  intro m
  induction m with
  | zero => intro k c hc; simp [diagFrom] at hc
  | succ m ih =>
    intro k c hc
    rw [diagFrom] at hc
    rcases List.mem_cons.mp hc with hc | hc
    · exact ⟨0, Nat.succ_pos _, by simpa using hc⟩
    · obtain ⟨t, ht, hce⟩ := ih (k + 1) c hc
      refine ⟨t + 1, by omega, ?_⟩
      have he : k + 1 + t = k + (t + 1) := by omega
      rw [hce, he]

lemma diagFrom_mem_self (y : List ℚ) :
    ∀ (m k t : ℕ), t < m →
      (y.getD (k + t) 0 * y.getD (k + t) 0, k + t, k + t) ∈ diagFrom y k m := by
  intro m
  induction m with
  | zero => intro k t ht; exact absurd ht (Nat.not_lt_zero t)
  | succ m ih =>
    intro k t ht
    rw [diagFrom]
    cases t with
    | zero => exact List.mem_cons_self _ _
    | succ t =>
      have he : k + (t + 1) = k + 1 + t := by omega
      rw [he]
      exact List.mem_cons_of_mem _ (ih (k + 1) t (by omega))

lemma diagFrom_fst_nodup (y : List ℚ) :
    ∀ (m k : ℕ), ((diagFrom y k m).map fun c => c.2.1).Nodup := by
  intro m
  induction m with
  | zero => intro k; simp [diagFrom]
  | succ m ih =>
    intro k
    rw [diagFrom, List.map_cons, List.nodup_cons]
    refine ⟨?_, ih (k + 1)⟩
    intro hmem
    obtain ⟨c, hc, hce⟩ := List.mem_map.mp hmem
    obtain ⟨t, _, rfl⟩ := diagFrom_mem y m (k + 1) c hc
    simp only at hce
    omega

lemma diagFrom_proj_eq (y : List ℚ) :
    ∀ (m k : ℕ), ((diagFrom y k m).map fun c => c.2.2) =
      ((diagFrom y k m).map fun c => c.2.1) := by
  intro m k
  refine List.map_congr_left ?_
  intro c hc
  obtain ⟨t, _, rfl⟩ := diagFrom_mem y m k c hc
  rfl

lemma diagFrom_weight_sum (y : List ℚ) :
    ∀ (m k : ℕ), k + m = y.length →
      ((diagFrom y k m).map fun c => c.1).sum = sumSq (y.drop k) := by
  intro m
  induction m with
  | zero =>
    intro k hk
    have hky : k = y.length := by omega
    subst hky
    simp [diagFrom, sumSq, List.drop_length]
  | succ m ih =>
    intro k hk
    have hkl : k < y.length := by omega
    rw [diagFrom, List.map_cons, List.sum_cons, ih (k + 1) (by omega),
      List.drop_eq_getElem_cons hkl]
    simp only [sumSq, List.map_cons, List.sum_cons]
    rw [List.getD_eq_getElem _ _ hkl, pow_two]

lemma accept_all :
    ∀ (l : List (ℕ × ℚ × ℕ × ℕ)) (s : ℚ) (m : List (ℕ × ℕ)) (uA uB : List ℕ),
      (∀ x ∈ l, x.2.2.1 ∉ uA ∧ x.2.2.2 ∉ uB) →
      ((l.map fun x => x.2.2.1).Nodup) → ((l.map fun x => x.2.2.2).Nodup) →
      (l.foldl accStep (s, m, uA, uB)).1 = s + (l.map fun x => x.2.1).sum ∧
      (l.foldl accStep (s, m, uA, uB)).2.1 = m ++ l.map fun x => (x.2.2.1, x.2.2.2) := by
  intro l
  induction l with
  | nil =>
    intro s m uA uB _ _ _
    constructor
    · simp
    · simp
  | cons x l ih =>
    intro s m uA uB hfree h1 h2
    rw [List.foldl_cons]
    have hx := hfree x (List.mem_cons_self x l)
    have hstep : accStep (s, m, uA, uB) x =
        (s + x.2.1, m ++ [(x.2.2.1, x.2.2.2)], x.2.2.1 :: uA, x.2.2.2 :: uB) := by
      unfold accStep
      rw [if_pos hx]
    rw [hstep]
    rw [List.map_cons] at h1 h2
    have h1' := List.nodup_cons.mp h1
    have h2' := List.nodup_cons.mp h2
    have hfree' : ∀ y ∈ l, y.2.2.1 ∉ x.2.2.1 :: uA ∧ y.2.2.2 ∉ x.2.2.2 :: uB := by
      intro y hy
      obtain ⟨hyA, hyB⟩ := hfree y (List.mem_cons_of_mem x hy)
      constructor
      · intro hmem
        rcases List.mem_cons.mp hmem with he | he
        · exact h1'.1 (he ▸ List.mem_map_of_mem (fun z => z.2.2.1) hy)
        · exact hyA he
      · intro hmem
        rcases List.mem_cons.mp hmem with he | he
        · exact h2'.1 (he ▸ List.mem_map_of_mem (fun z => z.2.2.2) hy)
        · exact hyB he
    obtain ⟨ihs, ihm⟩ := ih (s + x.2.1) (m ++ [(x.2.2.1, x.2.2.2)]) _ _ hfree' h1'.2 h2'.2
    constructor
    · rw [ihs, List.map_cons, List.sum_cons]
      ring
    · rw [ihm, List.map_cons, List.append_assoc]
      rfl

lemma mem_enum_of_mem {α : Type} {c : α} {L : List α} (hc : c ∈ L) :
    ∃ t, (t, c) ∈ L.enum := by
  obtain ⟨n, hn, he⟩ := List.getElem_of_mem hc
  refine ⟨n, ?_⟩
  have hn' : n < L.enum.length := by rw [List.enum_length]; exact hn
  have hge := List.getElem_enum L n hn'
  rw [he] at hge
  rw [← hge]
  exact List.getElem_mem hn'

/-- C5: a self-comparison of a normalised spectrum with sorted m/z values
pairwise more than `2 * tol` apart (within the 65536-peak interface limit,
see C10) scores exactly 1 and matches every peak index with itself. -/
theorem C5_self_similarity (S : SpectrumTuple) (tol : ℚ)
    (hlen : S.intensity.length = S.mz.length) (htol : 0 < tol)
    (hnorm : sumSq S.intensity = 1)
    (hgap : ∀ j, j < S.mz.length → ∀ i, i < j → S.mz.getD i 0 + 2 * tol < S.mz.getD j 0)
    (hcap : S.mz.length ≤ 65536) :
    (cosine S S tol).1 = 1 ∧ (∀ p ∈ (cosine S S tol).2, p.1 = p.2) ∧
    ∀ i, i < S.mz.length → (i, i) ∈ (cosine S S tol).2 := by
  have hdiag := sweepCands_diag S tol htol hlen hgap hcap
  have hn : 0 < S.mz.length := by
    by_contra hcon
    push_neg at hcon
    have hz : S.mz.length = 0 := by omega
    have hiz : S.intensity.length = 0 := by rw [hlen, hz]
    have hie : S.intensity = [] := List.eq_nil_of_length_eq_zero hiz
    rw [hie] at hnorm
    simp [sumSq] at hnorm
  have hclen : (sweepCands S S tol false).length = S.mz.length := by
    rw [hdiag, diagFrom_length]
  have hpos : 0 < (sweepCands S S tol false).length := by
    rw [hclen]
    exact hn
  have hrw : cosine S S tol =
      (((sortTagged (sweepCands S S tol false).enum).foldl accStep (0, [], [], [])).1,
       ((sortTagged (sweepCands S S tol false).enum).foldl accStep (0, [], [], [])).2.1) := by
    simp only [cosine, cosine_fast]
    rw [if_pos hpos]
  have hperm : (sortTagged (sweepCands S S tol false).enum).Perm
      (sweepCands S S tol false).enum := sortTagged_perm _
  have henumA : ((sweepCands S S tol false).enum.map fun x => x.2.2.1) =
      ((sweepCands S S tol false).map fun c => c.2.1) := by
    calc ((sweepCands S S tol false).enum.map fun x => x.2.2.1)
        = (((sweepCands S S tol false).enum.map Prod.snd).map fun c => c.2.1) := by
          rw [List.map_map]
          rfl
      _ = _ := by rw [List.enum_map_snd]
  have henumB : ((sweepCands S S tol false).enum.map fun x => x.2.2.2) =
      ((sweepCands S S tol false).map fun c => c.2.2) := by
    calc ((sweepCands S S tol false).enum.map fun x => x.2.2.2)
        = (((sweepCands S S tol false).enum.map Prod.snd).map fun c => c.2.2) := by
          rw [List.map_map]
          rfl
      _ = _ := by rw [List.enum_map_snd]
  have henumW : ((sweepCands S S tol false).enum.map fun x => x.2.1) =
      ((sweepCands S S tol false).map fun c => c.1) := by
    calc ((sweepCands S S tol false).enum.map fun x => x.2.1)
        = (((sweepCands S S tol false).enum.map Prod.snd).map fun c => c.1) := by
          rw [List.map_map]
          rfl
      _ = _ := by rw [List.enum_map_snd]
  have hnodA : ((sortTagged (sweepCands S S tol false).enum).map fun x => x.2.2.1).Nodup := by
    rw [(hperm.map fun x => x.2.2.1).nodup_iff, henumA, hdiag]
    exact diagFrom_fst_nodup S.intensity S.mz.length 0
  have hnodB : ((sortTagged (sweepCands S S tol false).enum).map fun x => x.2.2.2).Nodup := by
    rw [(hperm.map fun x => x.2.2.2).nodup_iff, henumB, hdiag]
    rw [diagFrom_proj_eq]
    exact diagFrom_fst_nodup S.intensity S.mz.length 0
  obtain ⟨hs, hm⟩ := accept_all (sortTagged (sweepCands S S tol false).enum) 0 [] [] []
    (fun x _ => ⟨List.not_mem_nil _, List.not_mem_nil _⟩) hnodA hnodB
  have hsum : ((sortTagged (sweepCands S S tol false).enum).map fun x => x.2.1).sum = 1 := by
    rw [(hperm.map fun x => x.2.1).sum_eq, henumW, hdiag]
    have hw := diagFrom_weight_sum S.intensity S.mz.length 0 (by rw [hlen]; omega)
    rw [hw, List.drop_zero, hnorm]
  refine ⟨?_, ?_, ?_⟩
  · rw [hrw]
    simp only
    rw [hs, hsum]
    ring
  · intro p hp
    rw [hrw] at hp
    simp only at hp
    rw [hm, List.nil_append] at hp
    obtain ⟨x, hx, rfl⟩ := List.mem_map.mp hp
    have hx1 : x ∈ (sweepCands S S tol false).enum := hperm.subset hx
    have hx2 : x.2 ∈ sweepCands S S tol false := by
      have hmem := List.mem_map_of_mem Prod.snd hx1
      rwa [List.enum_map_snd] at hmem
    rw [hdiag] at hx2
    obtain ⟨t, _, hxe⟩ := diagFrom_mem S.intensity S.mz.length 0 x.2 hx2
    have h1 : x.2.2.1 = 0 + t := by rw [hxe]
    have h2 : x.2.2.2 = 0 + t := by rw [hxe]
    simp only
    rw [h1, h2]
  · intro i hi
    rw [hrw]
    simp only
    rw [hm, List.nil_append]
    have hc : (S.intensity.getD (0 + i) 0 * S.intensity.getD (0 + i) 0, 0 + i, 0 + i) ∈
        diagFrom S.intensity 0 S.mz.length := diagFrom_mem_self S.intensity S.mz.length 0 i hi
    rw [← hdiag] at hc
    obtain ⟨t, ht⟩ := mem_enum_of_mem hc
    have htl : (t, (S.intensity.getD (0 + i) 0 * S.intensity.getD (0 + i) 0, 0 + i, 0 + i)) ∈
        sortTagged (sweepCands S S tol false).enum := hperm.symm.subset ht
    have := List.mem_map_of_mem (fun x => (x.2.2.1, x.2.2.2)) htl
    simpa using this

/-- Witness for C5 at a concrete normalised well-separated spectrum. -/
theorem C5_self_similarity_witness :
    (cosine ⟨0, 1, [100, 200], [3/5, 4/5]⟩ ⟨0, 1, [100, 200], [3/5, 4/5]⟩ (1/100)).1 = 1 ∧
    (∀ p ∈ (cosine ⟨0, 1, [100, 200], [3/5, 4/5]⟩ ⟨0, 1, [100, 200], [3/5, 4/5]⟩ (1/100)).2,
      p.1 = p.2) ∧
    ∀ i, i < (⟨0, 1, [100, 200], [3/5, 4/5]⟩ : SpectrumTuple).mz.length →
      (i, i) ∈ (cosine ⟨0, 1, [100, 200], [3/5, 4/5]⟩ ⟨0, 1, [100, 200], [3/5, 4/5]⟩ (1/100)).2 :=
  C5_self_similarity ⟨0, 1, [100, 200], [3/5, 4/5]⟩ (1/100) rfl (by decide) (by decide)
    (by decide) (by decide)

/-! ### Symmetry of the unshifted greedy variants on sorted spectra -/

lemma mirrorC_mirrorC (c : ℚ × ℕ × ℕ) : mirrorC (mirrorC c) = c := rfl

lemma mirrorC_injective : Function.Injective mirrorC := by
  intro a b h
  rw [← mirrorC_mirrorC a, h, mirrorC_mirrorC]

lemma lexLt_irrefl (c : ℚ × ℕ × ℕ) : ¬ lexLt c c := by
  unfold lexLt
  rintro (h | ⟨-, h⟩) <;> omega

lemma lexLt_ne {c d : ℚ × ℕ × ℕ} (h : lexLt c d) : c ≠ d := by
  rintro rfl
  exact lexLt_irrefl c h

lemma bandCands_mem (s1 s2 : SpectrumTuple) (tol : ℚ) (c : ℚ × ℕ × ℕ) :
    c ∈ bandCands s1 s2 tol ↔
      c.2.1 < s1.mz.length ∧ c.2.2 < s2.mz.length ∧
      |s1.mz.getD c.2.1 0 - s2.mz.getD c.2.2 0| ≤ tol ∧
      c.1 = s1.intensity.getD c.2.1 0 * s2.intensity.getD c.2.2 0 := by
  unfold bandCands bandRow
  constructor
  · intro hc
    obtain ⟨row, hrow, hcrow⟩ := List.mem_flatten.mp hc
    obtain ⟨i, hi, rfl⟩ := List.mem_map.mp hrow
    obtain ⟨j, hj, rfl⟩ := List.mem_map.mp hcrow
    have hj2 := List.mem_filter.mp hj
    exact ⟨List.mem_range.mp hi, List.mem_range.mp hj2.1, of_decide_eq_true hj2.2, rfl⟩
  · rintro ⟨h1, h2, h3, h4⟩
    refine List.mem_flatten.mpr ⟨_, List.mem_map_of_mem _ (List.mem_range.mpr h1), ?_⟩
    refine List.mem_map.mpr ⟨c.2.2, ?_, ?_⟩
    · exact List.mem_filter.mpr ⟨List.mem_range.mpr h2, decide_eq_true h3⟩
    · rw [← h4]

lemma bandCands_pairwise (s1 s2 : SpectrumTuple) (tol : ℚ) :
    (bandCands s1 s2 tol).Pairwise lexLt := by
  unfold bandCands
  rw [List.pairwise_flatten]
  constructor
  · intro row hrow
    obtain ⟨i, _, rfl⟩ := List.mem_map.mp hrow
    unfold bandRow
    refine List.Pairwise.map _ ?_ (((List.pairwise_lt_range _).filter _))
    intro a b hab
    exact Or.inr ⟨rfl, hab⟩
  · refine List.Pairwise.map _ ?_ (List.pairwise_lt_range _)
    intro i1 i2 h12 x hx y hy
    unfold bandRow at hx hy
    obtain ⟨j1, -, rfl⟩ := List.mem_map.mp hx
    obtain ⟨j2, -, rfl⟩ := List.mem_map.mp hy
    exact Or.inl h12

lemma bandCands_nodup (s1 s2 : SpectrumTuple) (tol : ℚ) :
    (bandCands s1 s2 tol).Nodup :=
  (bandCands_pairwise s1 s2 tol).imp fun h => lexLt_ne h

lemma bandCands_mirror_perm (s1 s2 : SpectrumTuple) (tol : ℚ) :
    ((bandCands s2 s1 tol).map mirrorC).Perm (bandCands s1 s2 tol) := by
  refine List.perm_of_nodup_nodup_toFinset_eq
    ((bandCands_nodup s2 s1 tol).map mirrorC_injective) (bandCands_nodup s1 s2 tol) ?_
  ext c
  simp only [List.mem_toFinset, List.mem_map]
  constructor
  · rintro ⟨d, hd, rfl⟩
    rw [bandCands_mem] at hd
    rw [bandCands_mem]
    refine ⟨hd.2.1, hd.1, ?_, ?_⟩
    · rw [abs_sub_comm]
      exact hd.2.2.1
    · rw [mul_comm]
      exact hd.2.2.2
  · intro hc
    refine ⟨mirrorC c, ?_, mirrorC_mirrorC c⟩
    rw [bandCands_mem] at hc
    rw [bandCands_mem]
    refine ⟨hc.2.1, hc.1, ?_, ?_⟩
    · rw [abs_sub_comm]
      exact hc.2.2.1
    · rw [mul_comm]
      exact hc.2.2.2

lemma sorted_getD_le {l : List ℚ} (hs : List.Sorted (· ≤ ·) l) {i j : ℕ}
    (hij : i ≤ j) (hj : j < l.length) : l.getD i 0 ≤ l.getD j 0 := by
  rcases eq_or_lt_of_le hij with rfl | hlt
  · exact le_refl _
  · have hi : i < l.length := lt_trans hlt hj
    rw [List.getD_eq_getElem _ _ hi, List.getD_eq_getElem _ _ hj]
    exact List.pairwise_iff_getElem.mp hs i j hi hj hlt

/-! ### The unshifted sweep on sorted spectra enumerates the tolerance band -/

lemma advanceNat_window (pmz tol : ℚ) (b : List ℚ) :
    ∀ (f c : ℕ), b.length - 1 - c ≤ f → c ≤ b.length - 1 →
      (∀ j, j < c → b.getD j 0 + 0 < pmz - tol) →
      c ≤ advanceNat pmz tol 0 b f c ∧
      advanceNat pmz tol 0 b f c ≤ b.length - 1 ∧
      (∀ j, j < advanceNat pmz tol 0 b f c → b.getD j 0 + 0 < pmz - tol) ∧
      ((b.length : ℤ) - 1 ≤ (advanceNat pmz tol 0 b f c : ℤ) ∨
        ¬ (b.getD (advanceNat pmz tol 0 b f c) 0 + 0 < pmz - tol)) := by
  intro f
  induction f with
  | zero =>
    intro c hf hc hlow
    refine ⟨le_refl c, hc, hlow, Or.inl ?_⟩
    simp only [advanceNat]
    omega
  | succ f ih =>
    intro c hf hc hlow
    rw [advanceNat]
    by_cases h : (c : ℤ) < (b.length : ℤ) - 1 ∧ b.getD c 0 + 0 < pmz - tol
    · rw [if_pos h]
      obtain ⟨hg1, hg2⟩ := h
      have hlow2 : ∀ j, j < c + 1 → b.getD j 0 + 0 < pmz - tol := by
        intro j hj
        rcases Nat.lt_succ_iff_lt_or_eq.mp hj with hj2 | hj2
        · exact hlow j hj2
        · rw [hj2]
          exact hg2
      have hres := ih (c + 1) (by omega) (by omega) hlow2
      exact ⟨le_trans (Nat.le_succ c) hres.1, hres.2.1, hres.2.2.1, hres.2.2.2⟩
    · rw [if_neg h]
      refine ⟨le_refl c, hc, hlow, ?_⟩
      rcases not_and_or.mp h with h1 | h1
      · exact Or.inl (by omega)
      · exact Or.inr h1

lemma range_filter_peel (m t : ℕ) (pmz tol : ℚ) (b : List ℚ) (ht : t < m)
    (hPt : |pmz - (b.getD t 0 + 0)| ≤ tol) :
    ((List.range m).filter fun j => decide (t ≤ j ∧ |pmz - (b.getD j 0 + 0)| ≤ tol)) =
      t :: ((List.range m).filter fun j =>
        decide (t + 1 ≤ j ∧ |pmz - (b.getD j 0 + 0)| ≤ tol)) := by
  induction m with
  | zero => omega
  | succ m ih =>
    rw [List.range_succ, List.filter_append, List.filter_append]
    rcases Nat.lt_succ_iff_lt_or_eq.mp ht with hlt | heq
    · rw [ih hlt]
      have hcong : (([m].filter fun j => decide (t ≤ j ∧ |pmz - (b.getD j 0 + 0)| ≤ tol))) =
          (([m].filter fun j => decide (t + 1 ≤ j ∧ |pmz - (b.getD j 0 + 0)| ≤ tol))) := by
        refine List.filter_congr ?_
        intro a ha
        rw [List.mem_singleton] at ha
        subst ha
        rw [decide_eq_decide]
        constructor
        · rintro ⟨-, hP⟩
          exact ⟨by omega, hP⟩
        · rintro ⟨-, hP⟩
          exact ⟨by omega, hP⟩
      rw [hcong]
      rfl
    · subst heq
      have h1 : ((List.range t).filter fun j =>
          decide (t ≤ j ∧ |pmz - (b.getD j 0 + 0)| ≤ tol)) = [] := by
        rw [List.filter_eq_nil_iff]
        intro j hj hdec
        rw [List.mem_range] at hj
        have := (of_decide_eq_true hdec).1
        omega
      have h1b : ((List.range t).filter fun j =>
          decide (t + 1 ≤ j ∧ |pmz - (b.getD j 0 + 0)| ≤ tol)) = [] := by
        rw [List.filter_eq_nil_iff]
        intro j hj hdec
        rw [List.mem_range] at hj
        have := (of_decide_eq_true hdec).1
        omega
      have h2 : (([t].filter fun j => decide (t ≤ j ∧ |pmz - (b.getD j 0 + 0)| ≤ tol))) = [t] := by
        rw [List.filter_cons, if_pos]
        · rfl
        · exact decide_eq_true ⟨le_refl t, hPt⟩
      have h2b : (([t].filter fun j =>
          decide (t + 1 ≤ j ∧ |pmz - (b.getD j 0 + 0)| ≤ tol))) = [] := by
        rw [List.filter_cons, if_neg]
        · rfl
        · intro hdec
          have := (of_decide_eq_true hdec).1
          omega
      rw [h1, h1b, h2, h2b]
      rfl

lemma scanFrom_filter_aux (i : ℕ) (pmz pint tol : ℚ) (b β : List ℚ)
    (hs : List.Sorted (· ≤ ·) b) :
    ∀ (f idx s : ℕ), b.length + 1 - (s + idx) ≤ f →
      (∀ u, s + idx ≤ u → u < b.length → pmz - tol ≤ b.getD u 0 + 0) →
      scanFrom i pmz pint tol 0 b β s f idx =
        ((List.range b.length).filter fun j =>
          decide (s + idx ≤ j ∧ |pmz - (b.getD j 0 + 0)| ≤ tol)).map
          fun j => (pint * β.getD j 0, i, j) := by
  intro f
  induction f with
  | zero =>
    intro idx s hf hband
    have hempty : ((List.range b.length).filter fun j =>
        decide (s + idx ≤ j ∧ |pmz - (b.getD j 0 + 0)| ≤ tol)) = [] := by
      rw [List.filter_eq_nil_iff]
      intro j hj hdec
      rw [List.mem_range] at hj
      have hprop := of_decide_eq_true hdec
      omega
    rw [hempty]
    rfl
  | succ f ih =>
    intro idx s hf hband
    rw [scanFrom]
    by_cases h : s + idx < b.length ∧ |pmz - (b.getD (s + idx) 0 + 0)| ≤ tol
    · rw [if_pos h]
      have hpeel := range_filter_peel b.length (s + idx) pmz tol b h.1 h.2
      have hadd : s + idx + 1 = s + (idx + 1) := by omega
      rw [hadd] at hpeel
      rw [hpeel, List.map_cons]
      congr 1
      exact ih (idx + 1) s (by omega) (fun u hu hub => hband u (by omega) hub)
    · rw [if_neg h]
      have hempty : ((List.range b.length).filter fun j =>
          decide (s + idx ≤ j ∧ |pmz - (b.getD j 0 + 0)| ≤ tol)) = [] := by
        rw [List.filter_eq_nil_iff]
        intro j hj hdec
        rw [List.mem_range] at hj
        have hprop := of_decide_eq_true hdec
        rcases not_and_or.mp h with h1 | h1
        · omega
        · have hsl : s + idx < b.length := by omega
          have hb1 := hband (s + idx) (le_refl _) hsl
          have hbig : pmz + tol < b.getD (s + idx) 0 + 0 := by
            by_contra hcon
            push_neg at hcon
            exact h1 (abs_le.mpr ⟨by linarith, by linarith⟩)
          have hmono : b.getD (s + idx) 0 ≤ b.getD j 0 := sorted_getD_le hs hprop.1 hj
          have habs := abs_le.mp hprop.2
          linarith
      rw [hempty]
      rfl

lemma scanFrom_band (i : ℕ) (pmz pint tol : ℚ) (b β : List ℚ)
    (hs : List.Sorted (· ≤ ·) b) (c : ℕ) (hc : c ≤ b.length - 1)
    (hlow : ∀ j, j < c → b.getD j 0 + 0 < pmz - tol)
    (hstop : (b.length : ℤ) - 1 ≤ (c : ℤ) ∨ ¬ (b.getD c 0 + 0 < pmz - tol)) :
    scanFrom i pmz pint tol 0 b β c (b.length + 1) 0 =
      ((List.range b.length).filter fun j =>
        decide (|pmz - (b.getD j 0 + 0)| ≤ tol)).map fun j => (pint * β.getD j 0, i, j) := by
  by_cases hin : b.getD c 0 + 0 < pmz - tol
  · rcases hstop with hpin | hok
    · have hempty : ((List.range b.length).filter fun j =>
          decide (|pmz - (b.getD j 0 + 0)| ≤ tol)) = [] := by
        rw [List.filter_eq_nil_iff]
        intro j hj hdec
        rw [List.mem_range] at hj
        have hprop := of_decide_eq_true hdec
        have hjc : j ≤ c := by omega
        have hmono : b.getD j 0 ≤ b.getD c 0 := sorted_getD_le hs hjc (by omega)
        have habs := abs_le.mp hprop
        linarith
      rw [hempty, List.map_nil, scanFrom, if_neg]
      rintro ⟨h1, h2⟩
      have hc0 : c + 0 = c := by omega
      rw [hc0] at h1 h2
      have habs := abs_le.mp h2
      linarith
    · exact absurd hin hok
  · have hband : ∀ u, c + 0 ≤ u → u < b.length → pmz - tol ≤ b.getD u 0 + 0 := by
      intro u hu hub
      push_neg at hin
      have hmono : b.getD c 0 ≤ b.getD u 0 := sorted_getD_le hs (by omega) hub
      linarith
    have haux := scanFrom_filter_aux i pmz pint tol b β hs (b.length + 1) 0 c (by omega) hband
    rw [haux]
    congr 1
    refine List.filter_congr ?_
    intro j hj
    rw [List.mem_range] at hj
    rw [decide_eq_decide]
    constructor
    · rintro ⟨-, hP⟩
      exact hP
    · intro hP
      refine ⟨?_, hP⟩
      by_contra hcon
      push_neg at hcon
      have hjc : j < c := by omega
      have := hlow j hjc
      have habs := abs_le.mp hP
      linarith

lemma processPeak_band (s1 s2 : SpectrumTuple) (tol : ℚ)
    (hs2 : List.Sorted (· ≤ ·) s2.mz) (hcap2 : s2.mz.length ≤ 65536)
    (k c : ℕ) (acc : List (ℚ × ℕ × ℕ)) (hc : c ≤ s2.mz.length - 1)
    (hlow : ∀ j, j < c → s2.mz.getD j 0 + 0 < s1.mz.getD k 0 - tol) :
    processPeak s2 tol 1 (massDiff s1 s2) ([c], acc)
      (k, s1.mz.getD k 0, s1.intensity.getD k 0) =
      ([advanceNat (s1.mz.getD k 0) tol 0 s2.mz s2.mz.length c],
        acc ++ bandRow s1 s2 tol k) ∧
    c ≤ advanceNat (s1.mz.getD k 0) tol 0 s2.mz s2.mz.length c ∧
    advanceNat (s1.mz.getD k 0) tol 0 s2.mz s2.mz.length c ≤ s2.mz.length - 1 ∧
    ∀ j, j < advanceNat (s1.mz.getD k 0) tol 0 s2.mz s2.mz.length c →
      s2.mz.getD j 0 + 0 < s1.mz.getD k 0 - tol := by
  have hmd : massDiff s1 s2 0 = 0 := rfl
  have hadv := advanceNat_window (s1.mz.getD k 0) tol s2.mz s2.mz.length c
    (by omega) hc hlow
  refine ⟨?_, hadv.1, hadv.2.1, hadv.2.2.1⟩
  have hr1 : List.range 1 = [0] := rfl
  simp only [processPeak, hr1, List.map_cons, List.map_nil, List.getD_cons_zero]
  rw [hmd]
  rw [advanceU16_eq_advanceNat _ _ _ _ hcap2]
  rw [scanFrom_band k (s1.mz.getD k 0) (s1.intensity.getD k 0) tol s2.mz s2.intensity hs2
    (advanceNat (s1.mz.getD k 0) tol 0 s2.mz s2.mz.length c) hadv.2.1 hadv.2.2.1 hadv.2.2.2]
  have hfc : ((List.range s2.mz.length).filter fun j =>
      decide (|s1.mz.getD k 0 - (s2.mz.getD j 0 + 0)| ≤ tol)) =
      ((List.range s2.mz.length).filter fun j =>
        decide (|s1.mz.getD k 0 - s2.mz.getD j 0| ≤ tol)) := by
    refine List.filter_congr ?_
    intro j _
    rw [decide_eq_decide, add_zero]
  rw [hfc]
  simp only [List.flatten_cons, List.flatten_nil, List.append_nil]
  unfold bandRow
  rfl

lemma sweep_band_aux (s1 s2 : SpectrumTuple) (tol : ℚ)
    (hs1 : List.Sorted (· ≤ ·) s1.mz) (hs2 : List.Sorted (· ≤ ·) s2.mz)
    (hcap2 : s2.mz.length ≤ 65536) :
    ∀ (L : List (ℚ × ℚ)) (k c : ℕ) (acc : List (ℚ × ℕ × ℕ)),
      k + L.length = s1.mz.length →
      (∀ t, t < L.length → L.getD t (0, 0) =
        (s1.mz.getD (k + t) 0, s1.intensity.getD (k + t) 0)) →
      c ≤ s2.mz.length - 1 →
      (∀ j, j < c → ∀ t, t < L.length →
        s2.mz.getD j 0 + 0 < s1.mz.getD (k + t) 0 - tol) →
      ((List.enumFrom k L).foldl (processPeak s2 tol 1 (massDiff s1 s2)) ([c], acc)).2 =
        acc ++ ((List.range' k L.length).map (bandRow s1 s2 tol)).flatten := by
  intro L
  induction L with
  | nil =>
    intro k c acc _ _ _ _
    simp [List.range']
  | cons p L ih =>
    intro k c acc hklen hL hc hlow
    rw [List.enumFrom_cons, List.foldl_cons]
    have hp : p = (s1.mz.getD k 0, s1.intensity.getD k 0) := by
      have h0 := hL 0 (by rw [List.length_cons]; exact Nat.succ_pos _)
      simpa using h0
    have hlowk : ∀ j, j < c → s2.mz.getD j 0 + 0 < s1.mz.getD k 0 - tol := by
      intro j hj
      have := hlow j hj 0 (by rw [List.length_cons]; exact Nat.succ_pos _)
      simpa using this
    obtain ⟨hstep, hle, hble, hlow2⟩ := processPeak_band s1 s2 tol hs2 hcap2 k c acc hc hlowk
    rw [hp, hstep]
    have hL2 : ∀ t, t < L.length → L.getD t (0, 0) =
        (s1.mz.getD (k + 1 + t) 0, s1.intensity.getD (k + 1 + t) 0) := by
      intro t ht
      have hmem := hL (t + 1) (by rw [List.length_cons]; omega)
      rw [List.getD_cons_succ] at hmem
      rw [hmem]
      have he : k + (t + 1) = k + 1 + t := by omega
      rw [he]
    have hklen2 : k + 1 + L.length = s1.mz.length := by
      rw [List.length_cons] at hklen
      omega
    have hlow3 : ∀ j, j < advanceNat (s1.mz.getD k 0) tol 0 s2.mz s2.mz.length c →
        ∀ t, t < L.length → s2.mz.getD j 0 + 0 < s1.mz.getD (k + 1 + t) 0 - tol := by
      intro j hj t ht
      have h1 := hlow2 j hj
      have hmono : s1.mz.getD k 0 ≤ s1.mz.getD (k + 1 + t) 0 :=
        sorted_getD_le hs1 (by omega) (by omega)
      linarith
    rw [ih (k + 1) _ (acc ++ bandRow s1 s2 tol k) hklen2 hL2 hble hlow3]
    rw [List.length_cons, List.append_assoc]
    congr 1

lemma sweepCands_band (s1 s2 : SpectrumTuple) (tol : ℚ)
    (hs1 : List.Sorted (· ≤ ·) s1.mz) (hs2 : List.Sorted (· ≤ ·) s2.mz)
    (hl1 : s1.intensity.length = s1.mz.length) (hcap2 : s2.mz.length ≤ 65536) :
    sweepCands s1 s2 tol false = bandCands s1 s2 tol := by
  simp only [sweepCands]
  rw [numShifts_false]
  have hzlen : (s1.mz.zip s1.intensity).length = s1.mz.length := by
    rw [List.length_zip, hl1, min_self]
  have hinit : ((List.range 1).map fun _ => (0 : ℕ)) = [0] := rfl
  rw [hinit]
  have henum : List.enum (s1.mz.zip s1.intensity) =
      List.enumFrom 0 (s1.mz.zip s1.intensity) := rfl
  rw [henum]
  have hfold := sweep_band_aux s1 s2 tol hs1 hs2 hcap2 (s1.mz.zip s1.intensity) 0 0 []
    (by rw [hzlen]; omega) ?_ (Nat.zero_le _) ?_
  · rw [hfold, List.nil_append, hzlen]
    unfold bandCands
    rw [List.range_eq_range']
  · intro t ht
    simp only [Nat.zero_add]
    have ht1 : t < s1.mz.length := by rwa [hzlen] at ht
    have ht2 : t < s1.intensity.length := by rwa [hl1]
    rw [List.getD_eq_getElem _ _ ht, List.getElem_zip,
      List.getD_eq_getElem _ _ ht1, List.getD_eq_getElem _ _ ht2]
  · intro j hj
    exact absurd hj (Nat.not_lt_zero j)

/-! ### Processing order and used-set facts for the acceptance pass -/

lemma mem_enum_getD {L : List (ℚ × ℕ × ℕ)} {x : ℕ × ℚ × ℕ × ℕ} (hx : x ∈ L.enum) :
    x.1 < L.length ∧ L.getD x.1 (0, 0, 0) = x.2 := by
  obtain ⟨t, ht, hEq⟩ := List.getElem_of_mem hx
  have htl : t < L.length := by
    rw [List.enum_length] at ht
    exact ht
  rw [List.getElem_enum] at hEq
  rw [← hEq]
  exact ⟨htl, List.getD_eq_getElem L (0, 0, 0) htl⟩

lemma band_tag_lt {B : List (ℚ × ℕ × ℕ)} (hB : B.Pairwise lexLt)
    {x y : ℕ × ℚ × ℕ × ℕ} (hx : x ∈ B.enum) (hy : y ∈ B.enum)
    (h : lexLt x.2 y.2) : x.1 < y.1 := by
  obtain ⟨hxl, hxe⟩ := mem_enum_getD hx
  obtain ⟨hyl, hye⟩ := mem_enum_getD hy
  by_contra hcon
  push_neg at hcon
  rcases eq_or_lt_of_le hcon with heq | hlt
  · have hxy : x.2 = y.2 := by
      rw [← hxe, ← hye, heq]
    rw [hxy] at h
    exact lexLt_irrefl y.2 h
  · have hpw := List.pairwise_iff_getElem.mp hB y.1 x.1 hyl hxl hlt
    rw [← List.getD_eq_getElem B (0, 0, 0) hyl, ← List.getD_eq_getElem B (0, 0, 0) hxl,
      hye, hxe] at hpw
    unfold lexLt at h hpw
    omega

lemma sortTagged_pairwise_desc (l : List (ℕ × ℚ × ℕ × ℕ)) :
    (sortTagged l).Pairwise
      (fun x y => y.2.1 < x.2.1 ∨ (y.2.1 = x.2.1 ∧ y.1 ≤ x.1)) := by
  have hs : List.Sorted ascR (List.insertionSort ascR l) :=
    List.sorted_insertionSort ascR l
  have hrev := List.pairwise_reverse.mpr hs
  exact hrev.imp fun h => h

lemma accStep_used_mem (st : ℚ × List (ℕ × ℕ) × List ℕ × List ℕ)
    (c : ℕ × ℚ × ℕ × ℕ) :
    (∀ a, a ∈ st.2.2.1 → a ∈ (accStep st c).2.2.1) ∧
    (∀ a, a ∈ st.2.2.2 → a ∈ (accStep st c).2.2.2) := by
  unfold accStep
  by_cases h : c.2.2.1 ∉ st.2.2.1 ∧ c.2.2.2 ∉ st.2.2.2
  · rw [if_pos h]
    exact ⟨fun a ha => List.mem_cons_of_mem _ ha, fun a ha => List.mem_cons_of_mem _ ha⟩
  · rw [if_neg h]
    exact ⟨fun a ha => ha, fun a ha => ha⟩

lemma foldl_acc_skip :
    ∀ (l1 : List (ℕ × ℚ × ℕ × ℕ)) (e : ℕ × ℚ × ℕ × ℕ) (l2 : List (ℕ × ℚ × ℕ × ℕ))
      (st : ℚ × List (ℕ × ℕ) × List ℕ × List ℕ),
      (e.2.2.1 ∈ st.2.2.1 ∨ e.2.2.2 ∈ st.2.2.2) →
      (l1 ++ e :: l2).foldl accStep st = (l1 ++ l2).foldl accStep st := by
  intro l1
  induction l1 with
  | nil =>
    intro e l2 st he
    rw [List.nil_append, List.nil_append, List.foldl_cons]
    have hstep : accStep st e = st := by
      unfold accStep
      rw [if_neg]
      rintro ⟨h1, h2⟩
      rcases he with he | he
      · exact h1 he
      · exact h2 he
    rw [hstep]
  | cons x l1 ih =>
    intro e l2 st he
    rw [List.cons_append, List.cons_append, List.foldl_cons, List.foldl_cons]
    refine ih e l2 (accStep st x) ?_
    rcases he with he | he
    · exact Or.inl ((accStep_used_mem st x).1 e.2.2.1 he)
    · exact Or.inr ((accStep_used_mem st x).2 e.2.2.2 he)

/-! ### The two greedy directions accept the same mirrored matching -/

lemma mirror_fold (s1 s2 : SpectrumTuple) (tol : ℚ)
    (hs1 : List.Sorted (· ≤ ·) s1.mz) (hs2 : List.Sorted (· ≤ ·) s2.mz)
    (hp1 : ∀ x ∈ s1.intensity, 0 ≤ x) (hp2 : ∀ x ∈ s2.intensity, 0 ≤ x) :
    ∀ (N : ℕ) (L1 L2 : List (ℕ × ℚ × ℕ × ℕ)) (sc : ℚ) (M : List (ℕ × ℕ))
      (U V : List ℕ),
      L1.length + L2.length ≤ N →
      (L1.map Prod.snd).Perm ((L2.map Prod.snd).map mirrorC) →
      L1.Pairwise (fun x y => y.2.1 < x.2.1 ∨ (y.2.1 = x.2.1 ∧ y.1 ≤ x.1)) →
      L2.Pairwise (fun x y => y.2.1 < x.2.1 ∨ (y.2.1 = x.2.1 ∧ y.1 ≤ x.1)) →
      (∀ x ∈ L1, x ∈ (bandCands s1 s2 tol).enum) →
      (∀ y ∈ L2, y ∈ (bandCands s2 s1 tol).enum) →
      (∀ p q : ℕ, p < s1.mz.length → q < s2.mz.length →
        |s1.mz.getD p 0 - s2.mz.getD q 0| ≤ tol → p ∉ U → q ∉ V →
        (s1.intensity.getD p 0 * s2.intensity.getD q 0, p, q) ∈ L1.map Prod.snd) →
      (L2.foldl accStep (sc, M.map Prod.swap, V, U)).1 =
        (L1.foldl accStep (sc, M, U, V)).1 ∧
      (L2.foldl accStep (sc, M.map Prod.swap, V, U)).2.1 =
        ((L1.foldl accStep (sc, M, U, V)).2.1).map Prod.swap := by
  intro N
  induction N with
  | zero =>
    intro L1 L2 sc M U V hlen _ _ _ _ _ _
    have h1 : L1 = [] := List.eq_nil_of_length_eq_zero (by omega)
    have h2 : L2 = [] := List.eq_nil_of_length_eq_zero (by omega)
    subst h1
    subst h2
    exact ⟨rfl, rfl⟩
  | succ N ih =>
    intro L1 L2 sc M U V hlen hperm hpw1 hpw2 henum1 henum2 hcomp
    have hmemiff : ∀ z : ℚ × ℕ × ℕ,
        z ∈ L1.map Prod.snd ↔ mirrorC z ∈ L2.map Prod.snd := by
      intro z
      rw [hperm.mem_iff]
      constructor
      · intro hz
        obtain ⟨u, hu, huz⟩ := List.mem_map.mp hz
        rw [← huz, mirrorC_mirrorC]
        exact hu
      · intro hz
        exact List.mem_map.mpr ⟨mirrorC z, hz, mirrorC_mirrorC z⟩
    cases L1 with
    | nil =>
      have hmap : (L2.map Prod.snd).map mirrorC = [] := by
        rw [List.map_nil] at hperm
        exact (List.perm_nil.mp hperm.symm)
      have h2 : L2 = [] := by
        rcases List.map_eq_nil_iff.mp hmap with h
        exact List.map_eq_nil_iff.mp h
      subst h2
      exact ⟨rfl, rfl⟩
    | cons x t1 =>
      cases L2 with
      | nil =>
        exfalso
        rw [List.map_nil, List.map_nil] at hperm
        have := List.perm_nil.mp hperm
        simp at this
      | cons y t2 =>
        obtain ⟨xt, xw, xi, xj⟩ := x
        obtain ⟨yt, yw, yp, yq⟩ := y
        have hx1 : (xt, xw, xi, xj) ∈ (bandCands s1 s2 tol).enum :=
          henum1 _ (List.mem_cons_self _ t1)
        have hy1 : (yt, yw, yp, yq) ∈ (bandCands s2 s1 tol).enum :=
          henum2 _ (List.mem_cons_self _ t2)
        have hx2mem : ((xw, xi, xj) : ℚ × ℕ × ℕ) ∈ bandCands s1 s2 tol := by
          have h := List.mem_map_of_mem Prod.snd hx1
          rwa [List.enum_map_snd] at h
        have hy2mem : ((yw, yp, yq) : ℚ × ℕ × ℕ) ∈ bandCands s2 s1 tol := by
          have h := List.mem_map_of_mem Prod.snd hy1
          rwa [List.enum_map_snd] at h
        have hxband := (bandCands_mem s1 s2 tol _).mp hx2mem
        have hyband := (bandCands_mem s2 s1 tol _).mp hy2mem
        have hwx : ((xw, xi, xj) : ℚ × ℕ × ℕ) ∈ ((xt, xw, xi, xj) :: t1).map Prod.snd :=
          List.mem_map_of_mem Prod.snd (List.mem_cons_self _ t1)
        have hwy : ((yw, yp, yq) : ℚ × ℕ × ℕ) ∈ ((yt, yw, yp, yq) :: t2).map Prod.snd :=
          List.mem_map_of_mem Prod.snd (List.mem_cons_self _ t2)
        have hsndx : Prod.snd ((xt, xw, xi, xj) : ℕ × ℚ × ℕ × ℕ) =
            ((xw, xi, xj) : ℚ × ℕ × ℕ) := rfl
        have hsndy : Prod.snd ((yt, yw, yp, yq) : ℕ × ℚ × ℕ × ℕ) =
            ((yw, yp, yq) : ℚ × ℕ × ℕ) := rfl
        have hwmax1 : ∀ z : ℚ × ℕ × ℕ, z ∈ ((xt, xw, xi, xj) :: t1).map Prod.snd →
            z.1 ≤ xw := by
          intro z hz
          obtain ⟨u, hu, huz⟩ := List.mem_map.mp hz
          rcases List.mem_cons.mp hu with heq | hu2
          · rw [← huz, heq]
          · have hrel := (List.pairwise_cons.mp hpw1).1 u hu2
            rw [← huz]
            rcases hrel with h | ⟨h, -⟩
            · exact le_of_lt h
            · exact le_of_eq h
        have hwmax2 : ∀ z : ℚ × ℕ × ℕ, z ∈ ((yt, yw, yp, yq) :: t2).map Prod.snd →
            z.1 ≤ yw := by
          intro z hz
          obtain ⟨u, hu, huz⟩ := List.mem_map.mp hz
          rcases List.mem_cons.mp hu with heq | hu2
          · rw [← huz, heq]
          · have hrel := (List.pairwise_cons.mp hpw2).1 u hu2
            rw [← huz]
            rcases hrel with h | ⟨h, -⟩
            · exact le_of_lt h
            · exact le_of_eq h
        have hw12 : yw = xw := by
          have hmx : mirrorC (xw, xi, xj) ∈ ((yt, yw, yp, yq) :: t2).map Prod.snd :=
            (hmemiff _).mp hwx
          have hmy : mirrorC (yw, yp, yq) ∈ ((xt, xw, xi, xj) :: t1).map Prod.snd :=
            (hmemiff _).mpr (by rw [mirrorC_mirrorC]; exact hwy)
          have h1 := hwmax2 _ hmx
          have h2 := hwmax1 _ hmy
          unfold mirrorC at h1 h2
          simp only at h1 h2
          exact le_antisymm h2 h1
        have hmax1 : ∀ z : ℚ × ℕ × ℕ, z ∈ ((xt, xw, xi, xj) :: t1).map Prod.snd →
            z.1 = xw → ¬ lexLt (xw, xi, xj) z := by
          intro z hz hzw hlex
          obtain ⟨u, hu, huz⟩ := List.mem_map.mp hz
          rcases List.mem_cons.mp hu with heq | hu2
          · rw [← huz, heq] at hlex
            exact lexLt_irrefl _ hlex
          · have hrel := (List.pairwise_cons.mp hpw1).1 u hu2
            have huw : u.2.1 = xw := by rw [huz, hzw]
            rcases hrel with h | ⟨-, htag⟩
            · rw [huw] at h
              exact lt_irrefl _ h
            · have hu1 : u ∈ (bandCands s1 s2 tol).enum :=
                henum1 u (List.mem_cons_of_mem _ hu2)
              have hlt2 := band_tag_lt (bandCands_pairwise s1 s2 tol) hx1 hu1
                (by rw [huz]; exact hlex)
              simp only at hlt2
              omega
        have hmax2 : ∀ z : ℚ × ℕ × ℕ, z ∈ ((yt, yw, yp, yq) :: t2).map Prod.snd →
            z.1 = yw → ¬ lexLt (yw, yp, yq) z := by
          intro z hz hzw hlex
          obtain ⟨u, hu, huz⟩ := List.mem_map.mp hz
          rcases List.mem_cons.mp hu with heq | hu2
          · rw [← huz, heq] at hlex
            exact lexLt_irrefl _ hlex
          · have hrel := (List.pairwise_cons.mp hpw2).1 u hu2
            have huw : u.2.1 = yw := by rw [huz, hzw]
            rcases hrel with h | ⟨-, htag⟩
            · rw [huw] at h
              exact lt_irrefl _ h
            · have hu1 : u ∈ (bandCands s2 s1 tol).enum :=
                henum2 u (List.mem_cons_of_mem _ hu2)
              have hlt2 := band_tag_lt (bandCands_pairwise s2 s1 tol) hy1 hu1
                (by rw [huz]; exact hlex)
              simp only at hlt2
              omega
        by_cases hEq : ((yw, yp, yq) : ℚ × ℕ × ℕ) = mirrorC (xw, xi, xj)
        · -- mirrored heads: both runs treat them identically
          have hyp2 : yp = xj := congrArg (fun z : ℚ × ℕ × ℕ => z.2.1) hEq
          have hyq2 : yq = xi := congrArg (fun z : ℚ × ℕ × ℕ => z.2.2) hEq
          have hperm2 : (t1.map Prod.snd).Perm ((t2.map Prod.snd).map mirrorC) := by
            have h0 := hperm
            rw [List.map_cons, List.map_cons, List.map_cons, hEq, mirrorC_mirrorC] at h0
            exact h0.cons_inv
          by_cases hav : xi ∉ U ∧ xj ∉ V
          · have hstep1 : accStep (sc, M, U, V) (xt, xw, xi, xj) =
                (sc + xw, M ++ [(xi, xj)], xi :: U, xj :: V) := by
              unfold accStep
              rw [if_pos hav]
            have hstep2 : accStep (sc, M.map Prod.swap, V, U) (yt, yw, yp, yq) =
                (sc + xw, (M ++ [(xi, xj)]).map Prod.swap, xj :: V, xi :: U) := by
              unfold accStep
              rw [if_pos (by rw [hyp2, hyq2]; exact ⟨hav.2, hav.1⟩)]
              rw [hyp2, hyq2, hw12, List.map_append]
              rfl
            rw [List.foldl_cons, List.foldl_cons, hstep1, hstep2]
            refine ih t1 t2 (sc + xw) (M ++ [(xi, xj)]) (xi :: U) (xj :: V) ?_ hperm2
              hpw1.of_cons hpw2.of_cons
              (fun z hz => henum1 z (List.mem_cons_of_mem _ hz))
              (fun z hz => henum2 z (List.mem_cons_of_mem _ hz)) ?_
            · rw [List.length_cons, List.length_cons] at hlen
              omega
            · intro p q hp hq htol hpU hqV
              have hpU0 : p ∉ U := fun hc => hpU (List.mem_cons_of_mem _ hc)
              have hqV0 : q ∉ V := fun hc => hqV (List.mem_cons_of_mem _ hc)
              have hmem := hcomp p q hp hq htol hpU0 hqV0
              rw [List.map_cons] at hmem
              rcases List.mem_cons.mp hmem with heq2 | hmem2
              · exfalso
                have hp2 : p = xi := congrArg (fun z : ℚ × ℕ × ℕ => z.2.1) heq2
                exact hpU (hp2 ▸ List.mem_cons_self xi U)
              · exact hmem2
          · have hstep1 : accStep (sc, M, U, V) (xt, xw, xi, xj) = (sc, M, U, V) := by
              unfold accStep
              rw [if_neg hav]
            have hstep2 : accStep (sc, M.map Prod.swap, V, U) (yt, yw, yp, yq) =
                (sc, M.map Prod.swap, V, U) := by
              unfold accStep
              rw [if_neg]
              rintro ⟨h1, h2⟩
              rw [hyp2] at h1
              rw [hyq2] at h2
              exact hav ⟨h2, h1⟩
            rw [List.foldl_cons, List.foldl_cons, hstep1, hstep2]
            refine ih t1 t2 sc M U V ?_ hperm2 hpw1.of_cons hpw2.of_cons
              (fun z hz => henum1 z (List.mem_cons_of_mem _ hz))
              (fun z hz => henum2 z (List.mem_cons_of_mem _ hz)) ?_
            · rw [List.length_cons, List.length_cons] at hlen
              omega
            · intro p q hp hq htol hpU hqV
              have hmem := hcomp p q hp hq htol hpU hqV
              rw [List.map_cons] at hmem
              rcases List.mem_cons.mp hmem with heq2 | hmem2
              · exfalso
                have hp2 : p = xi := congrArg (fun z : ℚ × ℕ × ℕ => z.2.1) heq2
                have hq2 : q = xj := congrArg (fun z : ℚ × ℕ × ℕ => z.2.2) heq2
                rcases not_and_or.mp hav with hblk | hblk
                · rw [not_not] at hblk
                  exact hpU (hp2 ▸ hblk)
                · rw [not_not] at hblk
                  exact hqV (hq2 ▸ hblk)
              · exact hmem2
        · -- distinct heads: at least one of them is blocked
          have hne : ¬ (yp = xj ∧ yq = xi) := by
            rintro ⟨h1, h2⟩
            exact hEq (by rw [h1, h2, hw12]; rfl)
          have hxiU : xi < s1.mz.length := hxband.1
          have hxjV : xj < s2.mz.length := hxband.2.1
          have hypm : yp < s2.mz.length := hyband.1
          have hyqn : yq < s1.mz.length := hyband.2.1
          have hxtol : |s1.mz.getD xi 0 - s2.mz.getD xj 0| ≤ tol := hxband.2.2.1
          have hytol : |s2.mz.getD yp 0 - s1.mz.getD yq 0| ≤ tol := hyband.2.2.1
          have hxwq : xw = s1.intensity.getD xi 0 * s2.intensity.getD xj 0 := hxband.2.2.2
          have hywq : yw = s2.intensity.getD yp 0 * s1.intensity.getD yq 0 := hyband.2.2.2
          have hblk : (xi ∈ U ∨ xj ∈ V) ∨ (yp ∈ V ∨ yq ∈ U) := by
            by_contra hcon
            push_neg at hcon
            obtain ⟨⟨hiU, hjV⟩, hpV, hqU⟩ := hcon
            obtain ⟨habx1, habx2⟩ := abs_le.mp hxtol
            obtain ⟨haby1, haby2⟩ := abs_le.mp hytol
            rcases Nat.lt_trichotomy xi yq with hii | hii | hii
            · rcases Nat.lt_trichotomy xj yp with hjj | hjj | hjj
              · -- xi < yq, xj < yp: the mirror of the other head beats this head
                have hz : mirrorC (yw, yp, yq) ∈ ((xt, xw, xi, xj) :: t1).map Prod.snd :=
                  (hmemiff _).mpr (by rw [mirrorC_mirrorC]; exact hwy)
                exact hmax1 _ hz (by show yw = xw; exact hw12) (Or.inl hii)
              · -- xi < yq, xj = yp: shared column, larger row available
                have hband : |s1.mz.getD yq 0 - s2.mz.getD xj 0| ≤ tol := by
                  rw [hjj, abs_sub_comm]
                  exact hytol
                have hmem := hcomp yq xj hyqn hxjV hband hqU hjV
                have hwz : s1.intensity.getD yq 0 * s2.intensity.getD xj 0 = xw := by
                  rw [← hw12, hywq, hjj]
                  ring
                exact hmax1 _ hmem (by exact hwz) (Or.inl hii)
              · -- xi < yq, yp < xj: anti-diagonal, the rectangle corners dominate
                have hba : s1.mz.getD xi 0 ≤ s1.mz.getD yq 0 :=
                  sorted_getD_le hs1 (le_of_lt hii) hyqn
                have hbb : s2.mz.getD yp 0 ≤ s2.mz.getD xj 0 :=
                  sorted_getD_le hs2 (le_of_lt hjj) hxjV
                have hband1 : |s1.mz.getD yq 0 - s2.mz.getD xj 0| ≤ tol := by
                  rw [abs_le]
                  constructor
                  · linarith
                  · linarith
                have hmem1 := hcomp yq xj hyqn hxjV hband1 hqU hjV
                by_cases hwc : s1.intensity.getD yq 0 * s2.intensity.getD xj 0 = xw
                · exact hmax1 _ hmem1 hwc (Or.inl hii)
                · have hband2 : |s1.mz.getD xi 0 - s2.mz.getD yp 0| ≤ tol := by
                    rw [abs_le]
                    constructor
                    · linarith
                    · linarith
                  have hmem2 := hcomp xi yp hxiU hypm hband2 hiU hpV
                  have hle1 : s1.intensity.getD yq 0 * s2.intensity.getD xj 0 ≤ xw :=
                    hwmax1 _ hmem1
                  have hle2 : s1.intensity.getD xi 0 * s2.intensity.getD yp 0 ≤ xw :=
                    hwmax1 _ hmem2
                  have hprod : (s1.intensity.getD yq 0 * s2.intensity.getD xj 0) *
                      (s1.intensity.getD xi 0 * s2.intensity.getD yp 0) = xw * xw := by
                    nth_rewrite 2 [← hw12]
                    rw [hxwq, hywq]
                    ring
                  have hnn1 : 0 ≤ s1.intensity.getD yq 0 * s2.intensity.getD xj 0 :=
                    mul_nonneg (getD_nonneg hp1 _) (getD_nonneg hp2 _)
                  have hnn2 : 0 ≤ s1.intensity.getD xi 0 * s2.intensity.getD yp 0 :=
                    mul_nonneg (getD_nonneg hp1 _) (getD_nonneg hp2 _)
                  have hwnn : 0 ≤ xw := by
                    rw [hxwq]
                    exact mul_nonneg (getD_nonneg hp1 _) (getD_nonneg hp2 _)
                  have hlt1 : s1.intensity.getD yq 0 * s2.intensity.getD xj 0 < xw :=
                    lt_of_le_of_ne hle1 hwc
                  have hxwpos : 0 < xw := lt_of_le_of_lt hnn1 hlt1
                  have hq1 : (s1.intensity.getD yq 0 * s2.intensity.getD xj 0) *
                      (s1.intensity.getD xi 0 * s2.intensity.getD yp 0) ≤
                      (s1.intensity.getD yq 0 * s2.intensity.getD xj 0) * xw :=
                    mul_le_mul_of_nonneg_left hle2 hnn1
                  have hq2 : (s1.intensity.getD yq 0 * s2.intensity.getD xj 0) * xw <
                      xw * xw := mul_lt_mul_of_pos_right hlt1 hxwpos
                  linarith
            · -- xi = yq
              rcases Nat.lt_trichotomy xj yp with hjj | hjj | hjj
              · -- same row, larger column available
                have hband : |s1.mz.getD xi 0 - s2.mz.getD yp 0| ≤ tol := by
                  rw [← hii] at hytol
                  rw [abs_sub_comm]
                  exact hytol
                have hmem := hcomp xi yp hxiU hypm hband hiU hpV
                have hwz : s1.intensity.getD xi 0 * s2.intensity.getD yp 0 = xw := by
                  rw [← hw12, hywq, hii]
                  ring
                exact hmax1 _ hmem hwz (Or.inr ⟨rfl, hjj⟩)
              · exact hne ⟨hjj.symm, hii.symm⟩
              · -- same row, the mirrored head beats the other head in direction 2
                have hz : mirrorC (xw, xi, xj) ∈ ((yt, yw, yp, yq) :: t2).map Prod.snd :=
                  (hmemiff _).mp hwx
                exact hmax2 _ hz (by show xw = yw; exact hw12.symm) (Or.inl hjj)
            · rcases Nat.lt_trichotomy xj yp with hjj | hjj | hjj
              · -- yq < xi, xj < yp: anti-diagonal, the rectangle corners dominate
                have hba : s1.mz.getD yq 0 ≤ s1.mz.getD xi 0 :=
                  sorted_getD_le hs1 (le_of_lt hii) hxiU
                have hbb : s2.mz.getD xj 0 ≤ s2.mz.getD yp 0 :=
                  sorted_getD_le hs2 (le_of_lt hjj) hypm
                have hband1 : |s1.mz.getD xi 0 - s2.mz.getD yp 0| ≤ tol := by
                  rw [abs_le]
                  constructor
                  · linarith
                  · linarith
                have hmem1 := hcomp xi yp hxiU hypm hband1 hiU hpV
                by_cases hwc : s1.intensity.getD xi 0 * s2.intensity.getD yp 0 = xw
                · exact hmax1 _ hmem1 hwc (Or.inr ⟨rfl, hjj⟩)
                · have hband2 : |s1.mz.getD yq 0 - s2.mz.getD xj 0| ≤ tol := by
                    rw [abs_le]
                    constructor
                    · linarith
                    · linarith
                  have hmem2 := hcomp yq xj hyqn hxjV hband2 hqU hjV
                  have hle1 : s1.intensity.getD xi 0 * s2.intensity.getD yp 0 ≤ xw :=
                    hwmax1 _ hmem1
                  have hle2 : s1.intensity.getD yq 0 * s2.intensity.getD xj 0 ≤ xw :=
                    hwmax1 _ hmem2
                  have hprod : (s1.intensity.getD xi 0 * s2.intensity.getD yp 0) *
                      (s1.intensity.getD yq 0 * s2.intensity.getD xj 0) = xw * xw := by
                    nth_rewrite 2 [← hw12]
                    rw [hxwq, hywq]
                    ring
                  have hnn1 : 0 ≤ s1.intensity.getD xi 0 * s2.intensity.getD yp 0 :=
                    mul_nonneg (getD_nonneg hp1 _) (getD_nonneg hp2 _)
                  have hnn2 : 0 ≤ s1.intensity.getD yq 0 * s2.intensity.getD xj 0 :=
                    mul_nonneg (getD_nonneg hp1 _) (getD_nonneg hp2 _)
                  have hwnn : 0 ≤ xw := by
                    rw [hxwq]
                    exact mul_nonneg (getD_nonneg hp1 _) (getD_nonneg hp2 _)
                  have hlt1 : s1.intensity.getD xi 0 * s2.intensity.getD yp 0 < xw :=
                    lt_of_le_of_ne hle1 hwc
                  have hxwpos : 0 < xw := lt_of_le_of_lt hnn1 hlt1
                  have hq1 : (s1.intensity.getD xi 0 * s2.intensity.getD yp 0) *
                      (s1.intensity.getD yq 0 * s2.intensity.getD xj 0) ≤
                      (s1.intensity.getD xi 0 * s2.intensity.getD yp 0) * xw :=
                    mul_le_mul_of_nonneg_left hle2 hnn1
                  have hq2 : (s1.intensity.getD xi 0 * s2.intensity.getD yp 0) * xw <
                      xw * xw := mul_lt_mul_of_pos_right hlt1 hxwpos
                  linarith
              · -- yq < xi, xj = yp: shared column, direction 2 sees a larger row
                have hz : mirrorC (xw, xi, xj) ∈ ((yt, yw, yp, yq) :: t2).map Prod.snd :=
                  (hmemiff _).mp hwx
                refine hmax2 _ hz (by show xw = yw; exact hw12.symm) (Or.inr ⟨?_, hii⟩)
                show yp = xj
                exact hjj.symm
              · -- yq < xi, yp < xj: the mirrored head beats the other head in direction 2
                have hz : mirrorC (xw, xi, xj) ∈ ((yt, yw, yp, yq) :: t2).map Prod.snd :=
                  (hmemiff _).mp hwx
                exact hmax2 _ hz (by show xw = yw; exact hw12.symm) (Or.inl hjj)
          -- consume the blockedness: drop the blocked candidate and its mirror copy
          rcases hblk with hblkx | hblky
          · have hstep1 : accStep (sc, M, U, V) (xt, xw, xi, xj) = (sc, M, U, V) := by
              unfold accStep
              rw [if_neg]
              rintro ⟨h1, h2⟩
              rcases hblkx with h | h
              · exact h1 h
              · exact h2 h
            have hmx : mirrorC (xw, xi, xj) ∈ ((yt, yw, yp, yq) :: t2).map Prod.snd :=
              (hmemiff _).mp hwx
            obtain ⟨z, hz, hzEq⟩ := List.mem_map.mp hmx
            obtain ⟨l1, l2, hL2s⟩ := List.append_of_mem hz
            have hzb1 : z.2.2.1 = xj := congrArg (fun w : ℚ × ℕ × ℕ => w.2.1) hzEq
            have hzb2 : z.2.2.2 = xi := congrArg (fun w : ℚ × ℕ × ℕ => w.2.2) hzEq
            have hskip : ((yt, yw, yp, yq) :: t2).foldl accStep (sc, M.map Prod.swap, V, U) =
                (l1 ++ l2).foldl accStep (sc, M.map Prod.swap, V, U) := by
              rw [hL2s]
              refine foldl_acc_skip l1 z l2 _ ?_
              rcases hblkx with h | h
              · refine Or.inr ?_
                show z.2.2.2 ∈ U
                rw [hzb2]
                exact h
              · refine Or.inl ?_
                show z.2.2.1 ∈ V
                rw [hzb1]
                exact h
            have hlen2 : t2.length = l1.length + l2.length := by
              have h := congrArg List.length hL2s
              rw [List.length_cons, List.length_append, List.length_cons] at h
              omega
            rw [hskip, List.foldl_cons, hstep1]
            have hsub : List.Sublist (l1 ++ l2) ((yt, yw, yp, yq) :: t2) := by
              rw [hL2s]
              exact List.Sublist.append (List.Sublist.refl l1) (List.sublist_cons_self z l2)
            refine ih t1 (l1 ++ l2) sc M U V ?_ ?_ hpw1.of_cons (hpw2.sublist hsub)
              (fun u hu => henum1 u (List.mem_cons_of_mem _ hu))
              (fun u hu => henum2 u (hsub.subset hu)) ?_
            · rw [List.length_cons, List.length_cons] at hlen
              rw [List.length_append]
              omega
            · have h0 := hperm
              rw [hL2s] at h0
              simp only [List.map_cons, List.map_append] at h0
              rw [hzEq, mirrorC_mirrorC] at h0
              have h1 := h0.trans List.perm_middle
              rw [List.map_append, List.map_append]
              exact h1.cons_inv
            · intro p q hp hq htol hpU hqV
              have hmem := hcomp p q hp hq htol hpU hqV
              rw [List.map_cons] at hmem
              rcases List.mem_cons.mp hmem with heq2 | hmem2
              · exfalso
                have hp2 : p = xi := congrArg (fun z : ℚ × ℕ × ℕ => z.2.1) heq2
                have hq2 : q = xj := congrArg (fun z : ℚ × ℕ × ℕ => z.2.2) heq2
                rcases hblkx with h | h
                · exact hpU (hp2 ▸ h)
                · exact hqV (hq2 ▸ h)
              · exact hmem2
          · have hstep2 : accStep (sc, M.map Prod.swap, V, U) (yt, yw, yp, yq) =
                (sc, M.map Prod.swap, V, U) := by
              unfold accStep
              rw [if_neg]
              rintro ⟨h1, h2⟩
              rcases hblky with h | h
              · exact h1 h
              · exact h2 h
            have hmy : mirrorC (yw, yp, yq) ∈ ((xt, xw, xi, xj) :: t1).map Prod.snd :=
              (hmemiff _).mpr (by rw [mirrorC_mirrorC]; exact hwy)
            obtain ⟨z, hz, hzEq⟩ := List.mem_map.mp hmy
            obtain ⟨l1, l2, hL1s⟩ := List.append_of_mem hz
            have hzb1 : z.2.2.1 = yq := congrArg (fun w : ℚ × ℕ × ℕ => w.2.1) hzEq
            have hzb2 : z.2.2.2 = yp := congrArg (fun w : ℚ × ℕ × ℕ => w.2.2) hzEq
            have hskip : ((xt, xw, xi, xj) :: t1).foldl accStep (sc, M, U, V) =
                (l1 ++ l2).foldl accStep (sc, M, U, V) := by
              rw [hL1s]
              refine foldl_acc_skip l1 z l2 _ ?_
              rcases hblky with h | h
              · refine Or.inr ?_
                show z.2.2.2 ∈ V
                rw [hzb2]
                exact h
              · refine Or.inl ?_
                show z.2.2.1 ∈ U
                rw [hzb1]
                exact h
            rw [List.foldl_cons, hstep2, hskip]
            have hsub : List.Sublist (l1 ++ l2) ((xt, xw, xi, xj) :: t1) := by
              rw [hL1s]
              exact List.Sublist.append (List.Sublist.refl l1) (List.sublist_cons_self z l2)
            refine ih (l1 ++ l2) t2 sc M U V ?_ ?_ (hpw1.sublist hsub) hpw2.of_cons
              (fun u hu => henum1 u (hsub.subset hu))
              (fun u hu => henum2 u (List.mem_cons_of_mem _ hu)) ?_
            · have h := congrArg List.length hL1s
              rw [List.length_cons, List.length_append, List.length_cons] at h
              rw [List.length_cons, List.length_cons] at hlen
              rw [List.length_append]
              omega
            · have h0 := hperm
              rw [hL1s] at h0
              simp only [List.map_cons, List.map_append] at h0
              rw [← hzEq] at h0
              have h1 := List.perm_middle.symm.trans h0
              rw [List.map_append]
              exact h1.cons_inv
            · intro p q hp hq htol hpU hqV
              have hmem := hcomp p q hp hq htol hpU hqV
              rw [hL1s, List.map_append, List.map_cons] at hmem
              rcases List.mem_append.mp hmem with hmem2 | hmem2
              · rw [List.map_append]
                exact List.mem_append.mpr (Or.inl hmem2)
              · rcases List.mem_cons.mp hmem2 with heq2 | hmem3
                · exfalso
                  have hp2 : p = yq :=
                    congrArg (fun w : ℚ × ℕ × ℕ => w.2.1) (heq2.trans hzEq)
                  have hq2 : q = yp :=
                    congrArg (fun w : ℚ × ℕ × ℕ => w.2.2) (heq2.trans hzEq)
                  rcases hblky with h | h
                  · exact hqV (hq2 ▸ h)
                  · exact hpU (hp2 ▸ h)
                · rw [List.map_append]
                  exact List.mem_append.mpr (Or.inr hmem3)

/-! ### Symmetry of the unshifted variants -/

lemma cosine_fast_symm (s1 s2 : SpectrumTuple) (tol : ℚ)
    (hs1 : List.Sorted (· ≤ ·) s1.mz) (hs2 : List.Sorted (· ≤ ·) s2.mz)
    (hl1 : s1.intensity.length = s1.mz.length) (hl2 : s2.intensity.length = s2.mz.length)
    (hp1 : ∀ x ∈ s1.intensity, 0 ≤ x) (hp2 : ∀ x ∈ s2.intensity, 0 ≤ x)
    (hcap1 : s1.mz.length ≤ 65536) (hcap2 : s2.mz.length ≤ 65536) :
    (cosine_fast s2 s1 tol false).1 = (cosine_fast s1 s2 tol false).1 ∧
    (cosine_fast s2 s1 tol false).2 = (cosine_fast s1 s2 tol false).2.map Prod.swap := by
  have hband1 : sweepCands s1 s2 tol false = bandCands s1 s2 tol :=
    sweepCands_band s1 s2 tol hs1 hs2 hl1 hcap2
  have hband2 : sweepCands s2 s1 tol false = bandCands s2 s1 tol :=
    sweepCands_band s2 s1 tol hs2 hs1 hl2 hcap1
  have hmirr := bandCands_mirror_perm s1 s2 tol
  have hlen : (bandCands s2 s1 tol).length = (bandCands s1 s2 tol).length := by
    have h := hmirr.length_eq
    rwa [List.length_map] at h
  by_cases hpos : 0 < (sweepCands s1 s2 tol false).length
  · have hpos2 : 0 < (sweepCands s2 s1 tol false).length := by
      rw [hband2, hlen, ← hband1]
      exact hpos
    have hrw1 : cosine_fast s1 s2 tol false =
        (((sortTagged (sweepCands s1 s2 tol false).enum).foldl accStep (0, [], [], [])).1,
         ((sortTagged (sweepCands s1 s2 tol false).enum).foldl accStep (0, [], [], [])).2.1) := by
      simp only [cosine_fast]
      rw [if_pos hpos]
    have hrw2 : cosine_fast s2 s1 tol false =
        (((sortTagged (sweepCands s2 s1 tol false).enum).foldl accStep (0, [], [], [])).1,
         ((sortTagged (sweepCands s2 s1 tol false).enum).foldl accStep (0, [], [], [])).2.1) := by
      simp only [cosine_fast]
      rw [if_pos hpos2]
    have hL1perm : ((sortTagged (sweepCands s1 s2 tol false).enum).map Prod.snd).Perm
        (bandCands s1 s2 tol) := by
      refine ((sortTagged_perm _).map Prod.snd).trans ?_
      rw [List.enum_map_snd, hband1]
    have hL2perm : ((sortTagged (sweepCands s2 s1 tol false).enum).map Prod.snd).Perm
        (bandCands s2 s1 tol) := by
      refine ((sortTagged_perm _).map Prod.snd).trans ?_
      rw [List.enum_map_snd, hband2]
    have hperm : ((sortTagged (sweepCands s1 s2 tol false).enum).map Prod.snd).Perm
        (((sortTagged (sweepCands s2 s1 tol false).enum).map Prod.snd).map mirrorC) :=
      (hL1perm.trans hmirr.symm).trans (hL2perm.symm.map mirrorC)
  
    have hres := mirror_fold s1 s2 tol hs1 hs2 hp1 hp2
      ((sortTagged (sweepCands s1 s2 tol false).enum).length +
        (sortTagged (sweepCands s2 s1 tol false).enum).length)
      (sortTagged (sweepCands s1 s2 tol false).enum)
      (sortTagged (sweepCands s2 s1 tol false).enum)
      0 [] [] [] (le_refl _) hperm
      (sortTagged_pairwise_desc _) (sortTagged_pairwise_desc _)
      (fun x hx => by
        rw [← hband1]
        exact (sortTagged_perm _).subset hx)
      (fun y hy => by
        rw [← hband2]
        exact (sortTagged_perm _).subset hy)
      (fun p q hp hq htol _ _ => by
        refine (hL1perm.mem_iff).mpr ?_
        exact (bandCands_mem s1 s2 tol _).mpr ⟨hp, hq, htol, rfl⟩)
    simp only [List.map_nil] at hres
    constructor
    · rw [hrw1, hrw2]
      exact hres.1
    · rw [hrw1, hrw2]
      exact hres.2
  · have hpos2 : ¬ 0 < (sweepCands s2 s1 tol false).length := by
      rw [hband2, hlen, ← hband1]
      exact hpos
    have h1 : cosine_fast s1 s2 tol false = (0, []) := by
      simp only [cosine_fast]
      rw [if_neg hpos]
    have h2 : cosine_fast s2 s1 tol false = (0, []) := by
      simp only [cosine_fast]
      rw [if_neg hpos2]
    rw [h1, h2]
    exact ⟨rfl, rfl⟩

lemma nl_mz_sorted (s : SpectrumTuple) :
    List.Sorted (· ≤ ·) (spec_to_neutral_loss s).mz := by
  simp only [spec_to_neutral_loss]
  have hs : List.Sorted pairLe (List.insertionSort pairLe
      ((s.mz.zip s.intensity).map fun p => (s.precursor_mz - p.1, p.2))) :=
    List.sorted_insertionSort pairLe _
  exact hs.map Prod.fst (fun a b hab => hab)

/-- C3 amended: under the engine preconditions (ascending-sorted m/z
arrays, intensity arrays of matching length with nonnegative entries,
at most 65536 peaks per spectrum, see C10), the unshifted variants are
fully symmetric: `cosine` and `neutral_loss` return the same score in both
directions and the `(B, A)` match list is exactly the index-swapped mirror
of the `(A, B)` match list.  The optimal-assignment shifted variant
`modified_cosine` is score-symmetric whenever both spectra carry the same
precursor charge (the two shift sets are then negatives of each other and
the cost matrices transposes).  The remaining cases genuinely fail, see
`C3_symmetry_counterexample`: with unequal charges the shift set comes
from spectrum 1's charge only (greedy and optimal variants both
asymmetric), and the greedy shifted variants are asymmetric even with
equal charges. -/
theorem C3_symmetry_amended (s1 s2 : SpectrumTuple) (tol : ℚ)
    (hs1 : List.Sorted (· ≤ ·) s1.mz) (hs2 : List.Sorted (· ≤ ·) s2.mz)
    (hl1 : s1.intensity.length = s1.mz.length) (hl2 : s2.intensity.length = s2.mz.length)
    (hp1 : ∀ x ∈ s1.intensity, 0 ≤ x) (hp2 : ∀ x ∈ s2.intensity, 0 ≤ x)
    (hcap1 : s1.mz.length ≤ 65536) (hcap2 : s2.mz.length ≤ 65536) :
    ((cosine s2 s1 tol).1 = (cosine s1 s2 tol).1 ∧
     (cosine s2 s1 tol).2 = (cosine s1 s2 tol).2.map Prod.swap) ∧
    ((neutral_loss s2 s1 tol).1 = (neutral_loss s1 s2 tol).1 ∧
     (neutral_loss s2 s1 tol).2 = (neutral_loss s1 s2 tol).2.map Prod.swap) ∧
    (s1.precursor_charge = s2.precursor_charge →
      (modified_cosine s1 s2 tol).1 = (modified_cosine s2 s1 tol).1) := by
  refine ⟨?_, ?_, ?_⟩
  · exact cosine_fast_symm s1 s2 tol hs1 hs2 hl1 hl2 hp1 hp2 hcap1 hcap2
  · have hnc1 : (spec_to_neutral_loss s1).mz.length ≤ 65536 :=
      le_trans (nl_mz_length_le s1) hcap1
    have hnc2 : (spec_to_neutral_loss s2).mz.length ≤ 65536 :=
      le_trans (nl_mz_length_le s2) hcap2
    exact cosine_fast_symm (spec_to_neutral_loss s1) (spec_to_neutral_loss s2) tol
      (nl_mz_sorted s1) (nl_mz_sorted s2) (nl_len_eq s1) (nl_len_eq s2)
      (nl_nonneg s1 hl1 hp1) (nl_nonneg s2 hl2 hp2) hnc1 hnc2
  · intro h
    have hc12 : ∀ i j, cost s2 s1 tol j i = cost s1 s2 tol i j :=
      fun i j => cost_symm s1 s2 tol h i j
    have hc21 : ∀ i j, cost s1 s2 tol j i = cost s2 s1 tol i j :=
      fun i j => (cost_symm s1 s2 tol h j i).symm
    simp only [modified_cosine]
    exact le_antisymm
      (lsa_swap_le (cost s2 s1 tol) (cost s1 s2 tol) s2.mz.length s1.mz.length hc21)
      (lsa_swap_le (cost s1 s2 tol) (cost s2 s1 tol) s1.mz.length s2.mz.length hc12)

/-- Witness for the amended C3 at a concrete sorted, normalised,
equal-charge input pair. -/
theorem C3_symmetry_amended_witness :
    ((cosine ⟨0, 1, [104], [1]⟩ ⟨0, 1, [100, 105], [3/5, 4/5]⟩ 2).1 =
       (cosine ⟨0, 1, [100, 105], [3/5, 4/5]⟩ ⟨0, 1, [104], [1]⟩ 2).1 ∧
     (cosine ⟨0, 1, [104], [1]⟩ ⟨0, 1, [100, 105], [3/5, 4/5]⟩ 2).2 =
       (cosine ⟨0, 1, [100, 105], [3/5, 4/5]⟩ ⟨0, 1, [104], [1]⟩ 2).2.map Prod.swap) ∧
    ((neutral_loss ⟨0, 1, [104], [1]⟩ ⟨0, 1, [100, 105], [3/5, 4/5]⟩ 2).1 =
       (neutral_loss ⟨0, 1, [100, 105], [3/5, 4/5]⟩ ⟨0, 1, [104], [1]⟩ 2).1 ∧
     (neutral_loss ⟨0, 1, [104], [1]⟩ ⟨0, 1, [100, 105], [3/5, 4/5]⟩ 2).2 =
       (neutral_loss ⟨0, 1, [100, 105], [3/5, 4/5]⟩ ⟨0, 1, [104], [1]⟩ 2).2.map Prod.swap) ∧
    ((⟨0, 1, [100, 105], [3/5, 4/5]⟩ : SpectrumTuple).precursor_charge =
        (⟨0, 1, [104], [1]⟩ : SpectrumTuple).precursor_charge →
      (modified_cosine ⟨0, 1, [100, 105], [3/5, 4/5]⟩ ⟨0, 1, [104], [1]⟩ 2).1 =
        (modified_cosine ⟨0, 1, [104], [1]⟩ ⟨0, 1, [100, 105], [3/5, 4/5]⟩ 2).1) :=
  C3_symmetry_amended ⟨0, 1, [100, 105], [3/5, 4/5]⟩ ⟨0, 1, [104], [1]⟩ 2
    (by decide) (by decide) rfl rfl (by decide) (by decide) (by decide) (by decide)
